import Mathlib

/-!
Verification development for the `params` optional-scalar library.

The library defines four JSON "optional scalar" wrapper types — `String`,
`Bool`, `Int` and `Time` — each holding a `value` together with a `present`
flag, with custom `UnmarshalJSON` / `MarshalJSON` methods, setters and
accessors.  This file shallowly embeds those types and methods in Lean:
Go byte slices and strings both become Lean `String`, the mutated receiver
becomes explicit state passing (`receiver → input → receiver × Option GoErr`),
and the Go standard-library routines the methods call (`encoding/json`
scalar decoding, `strconv.ParseInt`, `time.Parse` for the four layouts used,
`time.Time.MarshalJSON`) are modelled as executable Lean functions, each
marked in its doc comment.
-/

/-! ## Character and digit helpers -/

/-- Decimal ASCII digit test. -/
def isDigitCh (c : Char) : Bool := 48 ≤ c.toNat && c.toNat ≤ 57

/-- Numeric value of an ASCII digit character. -/
def dval (c : Char) : Nat := c.toNat - 48

/-- ASCII digit character of a value `< 10`. -/
def digitCh (d : Nat) : Char := Char.ofNat (48 + d)

/-- Lowercase hex digit character of a value `< 16` (Go's json encoder uses
lowercase hex). -/
def hexDigitCh (n : Nat) : Char := if n < 10 then Char.ofNat (48 + n) else Char.ofNat (87 + n)

/-- ASCII uppercase letter test. -/
def isUpperCh (c : Char) : Bool := 65 ≤ c.toNat && c.toNat ≤ 90

/-- ASCII lowercasing of one character.  Models Go's `strings.ToLower` on the
characters that can influence the `Bool` decoder's comparisons against the
ASCII literals `"true"` / `"false"`; no non-ASCII character lowercases to any
of those letters, so the comparison results agree with full Unicode
lowercasing. -/
def asciiLowerCh (c : Char) : Char :=
  if 65 ≤ c.toNat && c.toNat ≤ 90 then Char.ofNat (c.toNat + 32) else c

/-- Models `strings.ToLower` (see `asciiLowerCh`). -/
def strLower (s : String) : String := ⟨s.data.map asciiLowerCh⟩

/-- Drop characters satisfying `p` from both ends of a character list. -/
def trimCharList (p : Char → Bool) (cs : List Char) : List Char :=
  ((cs.dropWhile p).reverse.dropWhile p).reverse

/-- Models `strings.Trim(s, "\x22")`: strip every leading and trailing
double-quote character. -/
def strTrimQuotes (s : String) : String := ⟨trimCharList (fun c => c == '"') s.data⟩

/-- JSON whitespace as accepted by Go's json scanner. -/
def isWSCh (c : Char) : Bool := c == ' ' || c == '\t' || c == '\n' || c == '\r'

/-- Strip JSON whitespace from both ends (Go's `json.Unmarshal` ignores
whitespace around a top-level value). -/
def strTrimWS (s : String) : String := ⟨trimCharList isWSCh s.data⟩

/-! ## Decimal digit strings -/

/-- Value of a big-endian decimal digit string. -/
def digitsVal (cs : List Char) : Nat := cs.foldl (fun a c => 10 * a + dval c) 0

/-- Big-endian decimal digit string of a natural number (no leading zeros;
`0` prints as `"0"`). -/
def natToDec (n : Nat) : List Char :=
  if n = 0 then ['0'] else ((Nat.digits 10 n).map digitCh).reverse

/-- Models Go's `fmt` `%d` formatting of an integer. -/
def formatInt (v : Int) : String :=
  if v < 0 then ⟨'-' :: natToDec v.natAbs⟩ else ⟨natToDec v.toNat⟩

/-- Fixed-width zero-padded big-endian decimal digits, as produced by Go's
zero-padded time formatting (`%02d`, `%04d`, `%09d`) for values `< 10^k`. -/
def padDigits : Nat → Nat → List Char
  | 0, _ => []
  | k + 1, n => digitCh (n / 10 ^ k) :: padDigits k (n % 10 ^ k)

/-- Read exactly `k` decimal digits, accumulating onto `acc`. -/
def parseFixedAux : Nat → Nat → List Char → Option (Nat × List Char)
  | 0, acc, cs => some (acc, cs)
  | _ + 1, _, [] => none
  | k + 1, acc, c :: cs => if isDigitCh c then parseFixedAux k (10 * acc + dval c) cs else none

/-- Read exactly `k` decimal digits from the front of a character list. -/
def parseFixed (k : Nat) (cs : List Char) : Option (Nat × List Char) := parseFixedAux k 0 cs

/-! ## JSON number grammar and `strconv.ParseInt`

Models of the Go standard library pieces `Int.UnmarshalJSON` relies on:
the JSON number grammar enforced by `encoding/json` (`isValidNumber`), and
`json.Number.Int64`, which is `strconv.ParseInt(s, 10, 64)`. -/

/-- Integer part of the JSON number grammar: `0 | [1-9][0-9]*`.  Returns the
unconsumed remainder. -/
def numIntRest : List Char → Option (List Char)
  | [] => none
  | c :: cs =>
    if c == '0' then some cs
    else if isDigitCh c then some (cs.dropWhile isDigitCh)
    else none

/-- One-or-more digits: consume a nonempty digit run, returning the
remainder. -/
def numDigits1 : List Char → Option (List Char)
  | [] => none
  | d :: rest => if isDigitCh d then some ((d :: rest).dropWhile isDigitCh) else none

/-- Optional fraction part of the JSON number grammar: `('.' [0-9]+)?`. -/
def numFracRest : List Char → Option (List Char)
  | [] => some []
  | c :: cs2 => if c == '.' then numDigits1 cs2 else some (c :: cs2)

/-- Optional exponent part of the JSON number grammar:
`([eE] [+-]? [0-9]+)?`. -/
def numExpRest : List Char → Option (List Char)
  | [] => some []
  | c :: cs2 =>
    if c == 'e' || c == 'E' then
      match cs2 with
      | [] => none
      | s :: cs4 => if s == '+' || s == '-' then numDigits1 cs4 else numDigits1 (s :: cs4)
    else some (c :: cs2)

/-- Models Go `encoding/json`'s `isValidNumber`: the RFC 8259 number
grammar `-? (0 | [1-9][0-9]*) ('.' [0-9]+)? ([eE][+-]?[0-9]+)?`. -/
def isValidJSONNumber (cs : List Char) : Bool :=
  let cs1 := match cs with
    | c :: r => if c == '-' then r else c :: r
    | [] => []
  match ((numIntRest cs1).bind numFracRest).bind numExpRest with
  | some r4 => r4.isEmpty
  | none => false

/-- Result of `strconv.ParseInt`: a value, a syntax error, or a range
error. -/
inductive Int64Res where
  | ok (v : Int)
  | synErr
  | rangeErr
deriving DecidableEq, Repr

/-- Models Go `strconv.ParseInt(s, 10, 64)` (as called by
`json.Number.Int64`): an optional sign followed by one or more decimal
digits, rejecting values outside the signed 64-bit range. -/
def parseInt64 (s : String) : Int64Res :=
  let p : Bool × List Char := match s.data with
    | c :: r => if c == '-' then (true, r) else if c == '+' then (false, r) else (false, c :: r)
    | [] => (false, [])
  if p.2.isEmpty || !(p.2.all isDigitCh) then .synErr
  else
    let n := digitsVal p.2
    if p.1 then (if n ≤ 2 ^ 63 then .ok (-(n : Int)) else .rangeErr)
    else (if n < 2 ^ 63 then .ok (n : Int) else .rangeErr)

/-! ## JSON string encoding and decoding

Models of Go `encoding/json`'s string encoder (with its default HTML
escaping) and string decoder (`unquote`), used by `String.MarshalJSON`
(via `json.Marshal` of a Go string) and by scalar `json.Unmarshal` into a
string or quoted `json.Number`. -/

/-- Encoding of one character by Go's json string encoder: `"` and `\` are
escaped, `\n` `\r` `\t` get short escapes, other control
characters get `\u00XX`, the HTML characters `<` `>` `&` get `\u00XX`, and
U+2028/U+2029 get `\u20XX`; everything else is emitted verbatim. -/
def encCh (c : Char) : List Char :=
  if c = '"' then ['\\', '"']
  else if c = '\\' then ['\\', '\\']
  else if c.toNat = 10 then ['\\', 'n']
  else if c.toNat = 13 then ['\\', 'r']
  else if c.toNat = 9 then ['\\', 't']
  else if c.toNat < 32 then ['\\', 'u', '0', '0', hexDigitCh (c.toNat / 16), hexDigitCh (c.toNat % 16)]
  else if c = '<' ∨ c = '>' ∨ c = '&' then
    ['\\', 'u', '0', '0', hexDigitCh (c.toNat / 16), hexDigitCh (c.toNat % 16)]
  else if c.toNat = 0x2028 then ['\\', 'u', '2', '0', '2', '8']
  else if c.toNat = 0x2029 then ['\\', 'u', '2', '0', '2', '9']
  else [c]

/-- Body of an encoded JSON string: the escaped characters followed by the
closing quote. -/
def encBody : List Char → List Char
  | [] => ['"']
  | c :: cs => encCh c ++ encBody cs

/-- Models Go `json.Marshal` applied to a string value (never fails). -/
def jsonEncodeString (s : String) : String := ⟨'"' :: encBody s.data⟩

/-- Value of a single-character JSON escape (`\"` `\\` `\/` `\'` `\b` `\f`
`\n` `\r` `\t`; Go's decoder also accepts an escaped single quote). -/
def escCh (e : Char) : Option Char :=
  if e = '"' then some '"'
  else if e = '\\' then some '\\'
  else if e = '/' then some '/'
  else if e = Char.ofNat 39 then some (Char.ofNat 39)
  else if e = 'b' then some (Char.ofNat 8)
  else if e = 'f' then some (Char.ofNat 12)
  else if e = 'n' then some (Char.ofNat 10)
  else if e = 'r' then some (Char.ofNat 13)
  else if e = 't' then some (Char.ofNat 9)
  else none

/-- Value of a hex digit character (either case), if it is one. -/
def hexVal (c : Char) : Option Nat :=
  if 48 ≤ c.toNat && c.toNat ≤ 57 then some (c.toNat - 48)
  else if 97 ≤ c.toNat && c.toNat ≤ 102 then some (c.toNat - 87)
  else if 65 ≤ c.toNat && c.toNat ≤ 70 then some (c.toNat - 55)
  else none

/-- Value of a 4-hex-digit escape payload. -/
def hex4 (a b c d : Char) : Option Nat :=
  match hexVal a, hexVal b, hexVal c, hexVal d with
  | some x, some y, some z, some w => some (4096 * x + 256 * y + 16 * z + w)
  | _, _, _, _ => none

/-- Decode the body of a JSON string literal up to and including the closing
quote, requiring the input to end there.  Models Go `encoding/json`'s
`unquote`: raw control characters are rejected, `\uXXXX` escapes are decoded
with UTF-16 surrogate-pair handling (a decoded high surrogate followed by a
well-formed `\uYYYY` low surrogate combines into one character; any invalid
surrogate becomes U+FFFD and decoding resumes right after it). -/
def decStr : List Char → Option (List Char)
  | [] => none
  | c :: cs =>
    if c = '"' then (if cs.isEmpty then some [] else none)
    else if c = '\\' then
      match cs with
      | 'u' :: a :: b :: c3 :: d :: rest2@('\\' :: 'u' :: a2 :: b2 :: c4 :: d2 :: cs4) =>
        match hex4 a b c3 d with
        | none => none
        | some n =>
          if n < 0xD800 ∨ 0xE000 ≤ n then (decStr rest2).map (fun r => Char.ofNat n :: r)
          else if 0xDC00 ≤ n then (decStr rest2).map (fun r => Char.ofNat 0xFFFD :: r)
          else
            match hex4 a2 b2 c4 d2 with
            | some m =>
              if 0xDC00 ≤ m ∧ m < 0xE000 then
                (decStr cs4).map
                  (fun r => Char.ofNat (0x10000 + (n - 0xD800) * 1024 + (m - 0xDC00)) :: r)
              else (decStr rest2).map (fun r => Char.ofNat 0xFFFD :: r)
            | none => (decStr rest2).map (fun r => Char.ofNat 0xFFFD :: r)
      | 'u' :: a :: b :: c3 :: d :: cs3 =>
        match hex4 a b c3 d with
        | none => none
        | some n =>
          if n < 0xD800 ∨ 0xE000 ≤ n then (decStr cs3).map (fun r => Char.ofNat n :: r)
          else (decStr cs3).map (fun r => Char.ofNat 0xFFFD :: r)
      | e :: cs2 =>
        match escCh e with
        | some ec => (decStr cs2).map (fun r => ec :: r)
        | none => none
      | [] => none
    else if c.toNat < 32 then none
    else (decStr cs).map (fun r => c :: r)

/-- Parse a complete JSON string token (quote to quote, nothing after). -/
def jsonDecodeStringToken (s : String) : Option String :=
  match s.data with
  | c :: rest => if c = '"' then (decStr rest).map (fun cs => (⟨cs⟩ : String)) else none
  | [] => none

/-! ## Scalar `json.Unmarshal` models -/

/-- Result of `json.Unmarshal(data, &s)` for a string target: a decoded
string, the null no-op (the target is left untouched), or an error. -/
inductive JsonStrRes where
  | ok (v : String)
  | noop
  | err
deriving DecidableEq, Repr

/-- Models Go `json.Unmarshal(data, &v)` with `v` a `string`: whitespace is
trimmed, the literal `null` is a no-op, a JSON string token is decoded, and
anything else is an error. -/
def jsonUnmarshalGoString (data : String) : JsonStrRes :=
  let t := strTrimWS data
  if t = "null" then .noop
  else
    match jsonDecodeStringToken t with
    | some v => .ok v
    | none => .err

/-- Result of `json.Unmarshal(data, &v)` for a `json.Number` target. -/
inductive JsonNumRes where
  | ok (numStr : String)
  | noop
  | err
deriving DecidableEq, Repr

/-- Head-character test for a quoted token. -/
def headIsQuote : List Char → Bool
  | [] => false
  | c :: _ => c == '"'

/-- Models Go `json.Unmarshal(data, &v)` with `v` a `json.Number`:
whitespace is trimmed, the literal `null` is a no-op, a bare token must
satisfy the JSON number grammar, and a quoted token is accepted when its
decoded content satisfies the JSON number grammar. -/
def jsonUnmarshalNumber (data : String) : JsonNumRes :=
  let t := strTrimWS data
  if t = "null" then .noop
  else if headIsQuote t.data then
    match jsonDecodeStringToken t with
    | some content => if isValidJSONNumber content.data then .ok content else .err
    | none => .err
  else if isValidJSONNumber t.data then .ok t else .err

/-! ## Errors -/

/-- Errors produced by the embedded operations, keeping the raw text the Go
errors carry. -/
inductive GoErr where
  | invalidBoolFormat (raw : String)
  | invalidTimeFormat (raw : String)
  | jsonUnmarshalErr (raw : String)
  | numSynErr (numStr : String)
  | numRangeErr (numStr : String)
  | marshalYearRange
  | marshalTZRange
deriving DecidableEq, Repr

/-! ## The time model

`time.Time` values are embedded by their broken-down wall-clock fields plus
a zone offset in seconds.  All `time.Time` values reachable in this library
have fields in their calendar ranges (Go normalizes on construction), and
`time.Parse` validates ranges on the way in. -/

/-- Broken-down time with a zone offset in seconds east of UTC. -/
structure GoTime where
  year : Int
  month : Nat
  day : Nat
  hour : Nat
  minute : Nat
  second : Nat
  nano : Nat
  offset : Int
deriving DecidableEq, Repr

/-- Go's zero time `time.Time{}`: January 1, year 1, 00:00:00 UTC. -/
def zeroGoTime : GoTime := ⟨1, 1, 1, 0, 0, 0, 0, 0⟩

/-- Gregorian leap-year rule, as in Go's `time` package. -/
def isLeapYear (y : Int) : Bool := y % 4 == 0 && (y % 100 != 0 || y % 400 == 0)

/-- Days in a month, as in Go's `time` package. -/
def daysIn (y : Int) (m : Nat) : Nat :=
  if m = 2 then (if isLeapYear y then 29 else 28)
  else if m = 4 ∨ m = 6 ∨ m = 9 ∨ m = 11 then 30
  else 31

/-- Field ranges enforced by Go's `time.Parse` and satisfied by every
reachable `time.Time`. -/
def validGoTime (t : GoTime) : Bool :=
  1 ≤ t.month && t.month ≤ 12 && 1 ≤ t.day && t.day ≤ daysIn t.year t.month &&
  t.hour ≤ 23 && t.minute ≤ 59 && t.second ≤ 59 && t.nano < 1000000000

/-! ## `time.Parse` models for the four layouts -/

/-- Expect one specific character. -/
def expectCh (c : Char) : List Char → Option (List Char)
  | [] => none
  | x :: rest => if x == c then some rest else none

/-- Optional fractional second after the seconds field.  Go's parser accepts
a `.` or `,` followed by a nonempty digit run even when the layout carries
no fractional slot; `parseNanoseconds` caps the run at nine digits (the
rest of the run is consumed and discarded) and scales to nanoseconds. -/
def parseFrac (cs : List Char) : Option (Nat × List Char) :=
  match cs with
  | c :: cs2 =>
    if c == '.' || c == ',' then
      let ds := cs2.takeWhile isDigitCh
      if 1 ≤ ds.length then
        some (digitsVal (ds.take 9) * 10 ^ (9 - (ds.take 9).length), cs2.dropWhile isDigitCh)
      else none
    else some (0, c :: cs2)
  | [] => some (0, [])

/-- Modelled from Go stdlib: `getnum(s, fixed=false)` — one decimal digit,
or two when the second character is also a digit (the non-fixed reading
used for the `15` hour slot). -/
def getnum2 : List Char → Option (Nat × List Char)
  | [] => none
  | c1 :: rest =>
    if isDigitCh c1 then
      match rest with
      | c2 :: rest2 =>
        if isDigitCh c2 then some (10 * dval c1 + dval c2, rest2) else some (dval c1, rest)
      | [] => some (dval c1, [])
    else none

/-- Shared date-time core `YYYY-MM-DD<sep>hh:mm:ss[.fraction]` of the four
layouts.  All slots are fixed two-digit reads except the hour, whose `15`
layout chunk goes through the non-fixed `getnum` and so also accepts a
single digit. -/
def parseDateTime (sep : Char) (cs : List Char) : Option (GoTime × List Char) := do
  let (y, r1) ← parseFixed 4 cs
  let r2 ← expectCh '-' r1
  let (mo, r3) ← parseFixed 2 r2
  let r4 ← expectCh '-' r3
  let (d, r5) ← parseFixed 2 r4
  let r6 ← expectCh sep r5
  let (h, r7) ← getnum2 r6
  let r8 ← expectCh ':' r7
  let (mi, r9) ← parseFixed 2 r8
  let r10 ← expectCh ':' r9
  let (s, r11) ← parseFixed 2 r10
  let (ns, r12) ← parseFrac r11
  pure (⟨(y : Int), mo, d, h, mi, s, ns, 0⟩, r12)

/-- Zone suffix of the RFC 3339 layout: `Z` or `±hh:mm`, as seconds east of
UTC. -/
def parseOffset (cs : List Char) : Option (Int × List Char) :=
  match cs with
  | [] => none
  | c :: r =>
    if c == 'Z' then some (0, r)
    else if c == '+' || c == '-' then
      match parseFixed 2 r with
      | none => none
      | some (hh, r1) =>
        match expectCh ':' r1 with
        | none => none
        | some r2 =>
          match parseFixed 2 r2 with
          | none => none
          | some (mm, r3) =>
            let off : Int := ((hh * 3600 + mm * 60 : Nat) : Int)
            some (if c == '-' then -off else off, r3)
    else none

/-- Apply the zone offset and Go's range validation to a parsed time. -/
def finishTime (t : GoTime) (off : Int) : Option GoTime :=
  let t2 : GoTime := { t with offset := off }
  if validGoTime t2 then some t2 else none

/-- Modelled from Go stdlib: `time.Parse` with layout `time.RFC3339`
(`2006-01-02T15:04:05Z07:00`). -/
def parseLayoutRFC3339 (cs : List Char) : Option GoTime := do
  let (t, r) ← parseDateTime 'T' cs
  let (off, r2) ← parseOffset r
  if r2.isEmpty then finishTime t off else none

/-- Next calendar day. -/
def nextDay (y : Int) (m d : Nat) : Int × Nat × Nat :=
  if d < daysIn y m then (y, m, d + 1)
  else if m < 12 then (y, m + 1, 1)
  else (y + 1, 1, 1)

/-- Previous calendar day. -/
def prevDay (y : Int) (m d : Nat) : Int × Nat × Nat :=
  if 1 < d then (y, m, d - 1)
  else if 1 < m then (y, m - 1, daysIn y (m - 1))
  else (y - 1, 12, 31)

/-- Shift a broken-down time by `n` hours (`|n| ≤ 24` here), rolling the
calendar date as needed.  This is how a fabricated fixed zone with a
nonzero offset presents an instant that was assembled from the parsed wall
clock interpreted as UTC. -/
def shiftHours (t : GoTime) (n : Int) : GoTime :=
  let secs : Int := ((t.hour * 3600 + t.minute * 60 + t.second : Nat) : Int) + n * 3600
  if secs < 0 then
    match prevDay t.year t.month t.day with
    | (y, m, d) =>
      let s2 := (secs + 86400).toNat
      ⟨y, m, d, s2 / 3600, s2 % 3600 / 60, s2 % 60, t.nano, t.offset⟩
  else if secs < 86400 then
    let s2 := secs.toNat
    { t with hour := s2 / 3600, minute := s2 % 3600 / 60, second := s2 % 60 }
  else
    match nextDay t.year t.month t.day with
    | (y, m, d) =>
      let s2 := (secs - 86400).toNat
      ⟨y, m, d, s2 / 3600, s2 % 3600 / 60, s2 % 60, t.nano, t.offset⟩

/-- Modelled from Go stdlib: the `stdTZ` slot of `time.parse` with a UTC
local zone.  A literal `UTC` prefix is taken directly; otherwise
`parseTimeZone` requires at least three remaining characters and accepts
`ChST`/`MeST`, `GMT` with an optional signed hour of value at most 24, a
bare signed offset name `±n` (`n ≤ 24`), or a run of three to five
uppercase letters where a four-letter run must end in `T` or be `WITA` and
a five-letter run must end in `T`.  Since the abbreviation is not the
local zone's, Go records a fabricated zone: offset 0 for every form except
`GMT±n`, which records `±n` hours.  Returns the recorded offset in seconds
and the unconsumed input. -/
def parseZoneAbbr (cs : List Char) : Option (Int × List Char) :=
  match cs with
  | 'U' :: 'T' :: 'C' :: r => some (0, r)
  | _ =>
    if cs.length < 3 then none
    else
      match cs with
      | 'C' :: 'h' :: 'S' :: 'T' :: r => some (0, r)
      | 'M' :: 'e' :: 'S' :: 'T' :: r => some (0, r)
      | 'G' :: 'M' :: 'T' :: r =>
        (match r with
        | c :: r2 =>
          if c == '+' || c == '-' then
            let ds := r2.takeWhile isDigitCh
            if 1 ≤ ds.length ∧ digitsVal ds ≤ 24 then
              some ((if c == '-' then -(digitsVal ds : Int) else (digitsVal ds : Int)) * 3600,
                r2.dropWhile isDigitCh)
            else some (0, c :: r2)
          else some (0, c :: r2)
        | [] => some (0, []))
      | c :: r =>
        if c == '+' || c == '-' then
          let ds := r.takeWhile isDigitCh
          if 1 ≤ ds.length ∧ digitsVal ds ≤ 24 then some (0, r.dropWhile isDigitCh)
          else none
        else
          let run := cs.takeWhile isUpperCh
          if run.length = 3 then some (0, cs.drop 3)
          else if run.length = 4 then
            if cs.get? 3 = some 'T' ∨ run = ['W', 'I', 'T', 'A'] then some (0, cs.drop 4)
            else none
          else if run.length = 5 then
            if cs.get? 4 = some 'T' then some (0, cs.drop 5) else none
          else none
      | [] => none

/-- Modelled from Go stdlib: `time.Parse` with layout
`2006-01-02T15:04:05 MST`.  The parsed wall clock is validated, then the
fabricated zone's offset is recorded and — because the instant was built
from the wall clock as UTC — the displayed fields are shifted by that
offset. -/
def parseLayoutISOZone (cs : List Char) : Option GoTime := do
  let (t, r) ← parseDateTime 'T' cs
  let r2 ← expectCh ' ' r
  let (zoff, r3) ← parseZoneAbbr r2
  if r3.isEmpty then (finishTime t zoff).map (fun t2 => shiftHours t2 (zoff / 3600)) else none

/-- Modelled from Go stdlib: `time.Parse` with layout
`2006-01-02 15:04:05` (interpreted in UTC). -/
def parseLayoutSpace (cs : List Char) : Option GoTime := do
  let (t, r) ← parseDateTime ' ' cs
  if r.isEmpty then finishTime t 0 else none

/-- Modelled from Go stdlib: `time.Parse` with layout
`2006-01-02T15:04:05` (interpreted in UTC). -/
def parseLayoutISONoZone (cs : List Char) : Option GoTime := do
  let (t, r) ← parseDateTime 'T' cs
  if r.isEmpty then finishTime t 0 else none

/-- Go's `time.RFC3339` layout string. -/
def rfc3339Layout : String := "2006-01-02T15:04:05Z07:00"

/-- The ordered layout list `timeLayouts` from `time.go`. -/
def timeLayouts : List String :=
  [rfc3339Layout, "2006-01-02T15:04:05 MST", "2006-01-02 15:04:05", "2006-01-02T15:04:05"]

/-- Modelled from Go stdlib: `time.Parse(layout, s)` for the four layout
strings used by this library (any other layout is unreachable here). -/
def goParse (layout : String) (s : String) : Option GoTime :=
  if layout = rfc3339Layout then parseLayoutRFC3339 s.data
  else if layout = "2006-01-02T15:04:05 MST" then parseLayoutISOZone s.data
  else if layout = "2006-01-02 15:04:05" then parseLayoutSpace s.data
  else if layout = "2006-01-02T15:04:05" then parseLayoutISONoZone s.data
  else none

/-! ## `time.Time.MarshalJSON` model -/

/-- Strip trailing `'0'` characters. -/
def trimTrailZeros (cs : List Char) : List Char :=
  (cs.reverse.dropWhile (fun c => c == '0')).reverse

/-- RFC 3339 fractional-second suffix: empty when zero, otherwise a dot and
the 9-digit nanosecond field with trailing zeros trimmed. -/
def fmtFrac (ns : Nat) : List Char :=
  if ns = 0 then [] else '.' :: trimTrailZeros (padDigits 9 ns)

/-- RFC 3339 zone suffix: `Z` for offset 0, otherwise `±hh:mm`.  The
formatter works on `offset / 60` whole minutes (truncated toward zero), so
a sub-minute remainder is silently dropped and an offset in `(-60, 0)`
prints as `+00:00`. -/
def fmtOffset (off : Int) : List Char :=
  if off = 0 then ['Z']
  else (if off ≤ -60 then '-' else '+') ::
    (padDigits 2 (off.natAbs / 3600) ++ ':' :: padDigits 2 (off.natAbs % 3600 / 60))

/-- RFC 3339 text of a time with nanoseconds, as produced by Go's
`RFC3339Nano`-style strict formatting. -/
def fmtRFC3339Nano (t : GoTime) : List Char :=
  padDigits 4 t.year.toNat ++ '-' :: padDigits 2 t.month ++ '-' :: padDigits 2 t.day ++
  'T' :: padDigits 2 t.hour ++ ':' :: padDigits 2 t.minute ++ ':' :: padDigits 2 t.second ++
  fmtFrac t.nano ++ fmtOffset t.offset

/-- Modelled from Go stdlib: `time.Time.MarshalJSON`.  It formats the
quoted RFC 3339 form and then rejects the edge cases `appendStrictRFC3339`
checks on the formatted bytes: a year that does not print as exactly four
digits (year outside `[0, 9999]`, checked first) and a formatted zone hour
of 24 or more (`|offset| ≥ 24` hours; a sub-minute offset remainder is not
an error — the formatter truncates it away). -/
def goTimeMarshalJSON (t : GoTime) : Option String × Option GoErr :=
  if t.year < 0 ∨ 9999 < t.year then (none, some .marshalYearRange)
  else if 86400 ≤ t.offset.natAbs then (none, some .marshalTZRange)
  else (some ⟨'"' :: (fmtRFC3339Nano t ++ ['"'])⟩, none)

/-! ## The four param types (translated from `bool.go`, `int.go`,
`string.go`, `time.go`) -/

/-- The `Bool` param type: `value` plus `present`. -/
structure BoolParam where
  value : Bool
  present : Bool
deriving DecidableEq, Repr

/-- The `Int` param type: `Value` plus `Present` (exported fields in
`int.go`). -/
structure IntParam where
  value : Int
  present : Bool
deriving DecidableEq, Repr

/-- The `String` param type: `value` plus `present`. -/
structure StringParam where
  value : String
  present : Bool
deriving DecidableEq, Repr

/-- The `Time` param type: `value` plus `present`. -/
structure TimeParam where
  value : GoTime
  present : Bool
deriving DecidableEq, Repr

/-- `Bool.UnmarshalJSON` from `bool.go`: clear `present`, treat empty/null
as absent, lowercase and quote-trim the token, and accept `true`/`false`;
anything else is an `invalid boolean format` error (the `value` field is
not touched on that path). -/
def boolUnmarshalJSON (b : BoolParam) (data : String) : BoolParam × Option GoErr :=
  let b1 : BoolParam := { b with present := false }
  if data = "" ∨ data = "null" then ({ b1 with value := false }, none)
  else
    let str := strLower (strTrimQuotes data)
    if str = "true" then ({ value := true, present := true }, none)
    else if str = "false" then ({ value := false, present := true }, none)
    else (b1, some (.invalidBoolFormat data))

/-- `Bool.UnmarshalText` from `bool.go` (delegates to `UnmarshalJSON`). -/
def boolUnmarshalText (b : BoolParam) (text : String) : BoolParam × Option GoErr :=
  boolUnmarshalJSON b text

/-- `Bool.UnmarshalParam` from `bool.go` (delegates to `UnmarshalJSON`). -/
def boolUnmarshalParam (b : BoolParam) (param : String) : BoolParam × Option GoErr :=
  boolUnmarshalJSON b param

/-- `Bool.Set` from `bool.go`.  Both fields are overwritten, so the prior
receiver state does not appear. -/
def boolSet (v : Bool) : BoolParam := { value := v, present := true }

/-- `Bool.Value` from `bool.go`. -/
def boolValue (b : BoolParam) : Bool := if !b.present then false else b.value

/-- `Bool.Present` from `bool.go`. -/
def boolPresent (b : BoolParam) : Bool := b.present

/-- `Bool.MarshalJSON` from `bool.go`. -/
def boolMarshalJSON (b : BoolParam) : String × Option GoErr :=
  if !b.present then ("null", none)
  else if b.value then ("true", none)
  else ("false", none)

/-- `Int.UnmarshalJSON` from `int.go`: empty/null is absent; otherwise the
token is decoded into a `json.Number` and converted with `Int64()`, with
every error path resetting the receiver to `(0, false)`. -/
def intUnmarshalJSON (_i : IntParam) (data : String) : IntParam × Option GoErr :=
  if data = "" ∨ data = "null" then ({ value := 0, present := false }, none)
  else
    match jsonUnmarshalNumber data with
    | .err => ({ value := 0, present := false }, some (.jsonUnmarshalErr data))
    | .noop =>
      match parseInt64 "" with
      | .ok n => ({ value := n, present := true }, none)
      | .synErr => ({ value := 0, present := false }, some (.numSynErr ""))
      | .rangeErr => ({ value := 0, present := false }, some (.numRangeErr ""))
    | .ok numStr =>
      match parseInt64 numStr with
      | .ok n => ({ value := n, present := true }, none)
      | .synErr => ({ value := 0, present := false }, some (.numSynErr numStr))
      | .rangeErr => ({ value := 0, present := false }, some (.numRangeErr numStr))

/-- `Int.Set` from `int.go`. -/
def intSet (v : Int) : IntParam := { value := v, present := true }

/-- `Int.Get` from `int.go`. -/
def intGet (i : IntParam) : Int := if !i.present then 0 else i.value

/-- `Int.MarshalJSON` from `int.go`: `fmt.Appendf(nil, "%d", i.Get())`,
never an error. -/
def intMarshalJSON (i : IntParam) : String × Option GoErr := (formatInt (intGet i), none)

/-- `String.UnmarshalJSON` from `string.go`: empty/null is absent;
otherwise `json.Unmarshal` into the value, resetting on error.  (A null
token surrounded by whitespace escapes the literal check and is a
`json.Unmarshal` no-op that only sets `present`.) -/
def stringUnmarshalJSON (s : StringParam) (data : String) : StringParam × Option GoErr :=
  if data = "" ∨ data = "null" then ({ value := "", present := false }, none)
  else
    match jsonUnmarshalGoString data with
    | .ok v => ({ value := v, present := true }, none)
    | .noop => ({ s with present := true }, none)
    | .err => ({ value := "", present := false }, some (.jsonUnmarshalErr data))

/-- `String.Set` from `string.go`. -/
def stringSet (v : String) : StringParam := { value := v, present := true }

/-- `String.Value` from `string.go`. -/
def stringValue (s : StringParam) : String := if !s.present then "" else s.value

/-- `String.Present` from `string.go`. -/
def stringPresent (s : StringParam) : Bool := s.present

/-- `String.MarshalJSON` from `string.go`: `json.Marshal(s.Value())`. -/
def stringMarshalJSON (s : StringParam) : String × Option GoErr :=
  (jsonEncodeString (stringValue s), none)

/-- `String.GetJSON` from `string.go`. -/
def stringGetJSON (s : StringParam) : String := jsonEncodeString s.value

/-- The layout loop of `Time.UnmarshalJSON`: try each layout in order,
first successful parse wins. -/
def firstLayoutParse : List String → String → Option GoTime
  | [], _ => none
  | l :: rest, s =>
    match goParse l s with
    | some t => some t
    | none => firstLayoutParse rest s

/-- `Time.UnmarshalJSON` from `time.go`: reset the value to the zero time;
empty/null is absent; the exact token `""` is present-with-zero-value; any
other token is quote-trimmed and tried against the ordered layouts, and if
none parses the error keeps `present` set. -/
def timeUnmarshalJSON (dst : TimeParam) (data : String) : TimeParam × Option GoErr :=
  let d1 : TimeParam := { dst with value := zeroGoTime }
  if data = "" ∨ data = "null" then ({ d1 with present := false }, none)
  else if data = "\"\"" then ({ d1 with present := true }, none)
  else
    let d2 : TimeParam := { d1 with present := true }
    match firstLayoutParse timeLayouts (strTrimQuotes data) with
    | some t => ({ d2 with value := t }, none)
    | none => (d2, some (.invalidTimeFormat data))

/-- `Time.UnmarshalText` from `time.go` (delegates to `UnmarshalJSON`). -/
def timeUnmarshalText (dst : TimeParam) (text : String) : TimeParam × Option GoErr :=
  timeUnmarshalJSON dst text

/-- `Time.UnmarshalParam` from `time.go` (delegates to `UnmarshalJSON`). -/
def timeUnmarshalParam (dst : TimeParam) (param : String) : TimeParam × Option GoErr :=
  timeUnmarshalJSON dst param

/-- `Time.MarshalJSON` from `time.go`: `null` when absent, otherwise the
value's own `MarshalJSON`. -/
def timeMarshalJSON (dst : TimeParam) : Option String × Option GoErr :=
  if !dst.present then (some "null", none) else goTimeMarshalJSON dst.value

/-- `Time.Set` from `time.go`. -/
def timeSet (v : GoTime) : TimeParam := { value := v, present := true }

/-- `Time.Present` from `time.go`. -/
def timePresent (dst : TimeParam) : Bool := dst.present

/-- `Time.Value` from `time.go`. -/
def timeValue (dst : TimeParam) : GoTime := if !dst.present then zeroGoTime else dst.value

/-- `Time.IsZero` from `time.go`. -/
def timeIsZero (dst : TimeParam) : Bool := !dst.present || dst.value == zeroGoTime

/-! ## Token-shape predicates used to state the claims -/

/-- Syntactic shape of a bare integer token: an optional minus sign followed
by one or more decimal digits. -/
def isValidIntToken (s : String) : Bool :=
  match s.data with
  | '-' :: ds => !ds.isEmpty && ds.all isDigitCh
  | ds => !ds.isEmpty && ds.all isDigitCh

/-- A token containing a fraction dot or an exponent marker, i.e. a numeric
literal that is not an exact base-10 integer. -/
def hasNonIntegerPart (s : String) : Bool :=
  s.data.any (fun c => c == '.' || c == 'e' || c == 'E')

/-! # Theorems -/

/-! ## Easy structural claims -/

/-- C4: for every kind in {String, Bool, Int, Timestamp}, decoding an empty
input (zero bytes) or the exact literal `null` token yields
`present == false`, the kind's zero value, and no error — regardless of the
receiver's prior state. -/
theorem spec_C4 :
    (∀ b : BoolParam,
      boolUnmarshalJSON b "" = (⟨false, false⟩, none) ∧
      boolUnmarshalJSON b "null" = (⟨false, false⟩, none)) ∧
    (∀ i : IntParam,
      intUnmarshalJSON i "" = (⟨0, false⟩, none) ∧
      intUnmarshalJSON i "null" = (⟨0, false⟩, none)) ∧
    (∀ s : StringParam,
      stringUnmarshalJSON s "" = (⟨"", false⟩, none) ∧
      stringUnmarshalJSON s "null" = (⟨"", false⟩, none)) ∧
    (∀ t : TimeParam,
      timeUnmarshalJSON t "" = (⟨zeroGoTime, false⟩, none) ∧
      timeUnmarshalJSON t "null" = (⟨zeroGoTime, false⟩, none)) :=
  ⟨fun _ => ⟨rfl, rfl⟩, fun _ => ⟨rfl, rfl⟩, fun _ => ⟨rfl, rfl⟩, fun _ => ⟨rfl, rfl⟩⟩

/-- C8: whenever an instance's presence flag is false, the value accessor
(`Value()` / `Get()`) returns the kind's zero value, whatever the stored
`value` field holds. -/
theorem spec_C8 :
    (∀ b : BoolParam, b.present = false → boolValue b = false) ∧
    (∀ i : IntParam, i.present = false → intGet i = 0) ∧
    (∀ s : StringParam, s.present = false → stringValue s = "") ∧
    (∀ t : TimeParam, t.present = false → timeValue t = zeroGoTime) := by
  refine ⟨fun b h => ?_, fun i h => ?_, fun s h => ?_, fun t h => ?_⟩
  all_goals simp [boolValue, intGet, stringValue, timeValue, h]

/-- Witness for C8 at concrete stale states. -/
theorem spec_C8_witness :
    boolValue ⟨true, false⟩ = false ∧ intGet ⟨7, false⟩ = 0 ∧
    stringValue ⟨"stale", false⟩ = "" ∧ timeValue ⟨⟨2023, 1, 2, 3, 4, 5, 6, 7⟩, false⟩ = zeroGoTime :=
  ⟨spec_C8.1 ⟨true, false⟩ rfl, spec_C8.2.1 ⟨7, false⟩ rfl,
   spec_C8.2.2.1 ⟨"stale", false⟩ rfl, spec_C8.2.2.2 ⟨⟨2023, 1, 2, 3, 4, 5, 6, 7⟩, false⟩ rfl⟩

/-- C10: for the Time and Bool kinds, `UnmarshalText` and `UnmarshalParam`
agree with `UnmarshalJSON` on every input and every receiver state (both are
defined as direct delegations in the source). -/
theorem spec_C10 :
    (∀ (dst : TimeParam) (b : String),
      timeUnmarshalText dst b = timeUnmarshalJSON dst b ∧
      timeUnmarshalParam dst b = timeUnmarshalJSON dst b) ∧
    (∀ (bp : BoolParam) (b : String),
      boolUnmarshalText bp b = boolUnmarshalJSON bp b ∧
      boolUnmarshalParam bp b = boolUnmarshalJSON bp b) :=
  ⟨fun _ _ => ⟨rfl, rfl⟩, fun _ _ => ⟨rfl, rfl⟩⟩

/-! ## C1: state after a failed decode -/

/-- C1 counterexample: decoding the malformed token `x` into a Timestamp
returns an error but leaves `present == true`, contradicting the claim that
a failed decode always leaves the not-present state. -/
theorem spec_C1_counterexample :
    (timeUnmarshalJSON ⟨zeroGoTime, false⟩ "x").2.isSome = true ∧
    (timeUnmarshalJSON ⟨zeroGoTime, false⟩ "x").1.present = true := by
  decide

/-- C1 amended: a failed decode resets Int to `(0, present=false)` and
String to `("", present=false)` as claimed; for Bool it leaves
`present == false` but keeps the previous `value` field (masked by the
accessor); for Timestamp it leaves `present == true` with the zero time
value. -/
theorem spec_C1_amended :
    (∀ (i : IntParam) (data : String) (r : IntParam) (e : GoErr),
      intUnmarshalJSON i data = (r, some e) → r = ⟨0, false⟩) ∧
    (∀ (s : StringParam) (data : String) (r : StringParam) (e : GoErr),
      stringUnmarshalJSON s data = (r, some e) → r = ⟨"", false⟩) ∧
    (∀ (b : BoolParam) (data : String) (r : BoolParam) (e : GoErr),
      boolUnmarshalJSON b data = (r, some e) → r = ⟨b.value, false⟩) ∧
    (∀ (t : TimeParam) (data : String) (r : TimeParam) (e : GoErr),
      timeUnmarshalJSON t data = (r, some e) → r = ⟨zeroGoTime, true⟩) := by
  refine ⟨fun i data r e h => ?_, fun s data r e h => ?_,
    fun b data r e h => ?_, fun t data r e h => ?_⟩
  · simp only [intUnmarshalJSON] at h
    split at h
    · simp at h
    · split at h <;> (try split at h) <;> simp_all
  · simp only [stringUnmarshalJSON] at h
    split at h
    · simp at h
    · split at h <;> simp_all
  · simp only [boolUnmarshalJSON] at h
    split at h
    · simp at h
    · split at h
      · simp at h
      · split at h <;> simp_all
  · simp only [timeUnmarshalJSON] at h
    split at h
    · simp at h
    · split at h
      · simp at h
      · split at h <;> simp_all

/-- Witness for C1 amended at concrete failing inputs for each kind. -/
theorem spec_C1_amended_witness :
    (intUnmarshalJSON ⟨9, true⟩ "abc").1 = ⟨0, false⟩ ∧
    (stringUnmarshalJSON ⟨"old", true⟩ "true").1 = ⟨"", false⟩ ∧
    (boolUnmarshalJSON ⟨true, true⟩ "xyz").1 = ⟨true, false⟩ ∧
    (timeUnmarshalJSON ⟨zeroGoTime, false⟩ "\"invalid-time\"").1 = ⟨zeroGoTime, true⟩ := by
  refine ⟨?_, ?_, ?_, ?_⟩
  · have h := spec_C1_amended.1 ⟨9, true⟩ "abc" ⟨0, false⟩ (.jsonUnmarshalErr "abc") (by decide)
    simpa using congrArg Prod.fst (show intUnmarshalJSON ⟨9, true⟩ "abc" =
      (⟨0, false⟩, some (.jsonUnmarshalErr "abc")) by decide)
  · have h := spec_C1_amended.2.1 ⟨"old", true⟩ "true" ⟨"", false⟩ (.jsonUnmarshalErr "true")
      (by decide)
    simpa using congrArg Prod.fst (show stringUnmarshalJSON ⟨"old", true⟩ "true" =
      (⟨"", false⟩, some (.jsonUnmarshalErr "true")) by decide)
  · have h := spec_C1_amended.2.2.1 ⟨true, true⟩ "xyz" ⟨true, false⟩ (.invalidBoolFormat "xyz")
      (by decide)
    simpa using congrArg Prod.fst (show boolUnmarshalJSON ⟨true, true⟩ "xyz" =
      (⟨true, false⟩, some (.invalidBoolFormat "xyz")) by decide)
  · have h := spec_C1_amended.2.2.2 ⟨zeroGoTime, false⟩ "\"invalid-time\"" ⟨zeroGoTime, true⟩
      (.invalidTimeFormat "\"invalid-time\"") (by decide)
    simpa using congrArg Prod.fst (show timeUnmarshalJSON ⟨zeroGoTime, false⟩ "\"invalid-time\"" =
      (⟨zeroGoTime, true⟩, some (.invalidTimeFormat "\"invalid-time\"")) by decide)

/-! ## C2 / C7 counterexamples and marshal behaviour -/

/-- C2 counterexample: encoding a not-present Int yields the token `0`, not
the `null` token the claim requires. -/
theorem spec_C2_counterexample :
    (intMarshalJSON ⟨5, false⟩).1 = "0" ∧ ("0" : String) ≠ "null" := by
  exact ⟨rfl, by decide⟩

/-- C7 counterexample: encoding a present Timestamp whose year is 10000
returns an error (propagated from the strict RFC 3339 year-range check of
the underlying time encoder), contradicting "never returns an error". -/
theorem spec_C7_counterexample :
    (timeMarshalJSON ⟨⟨10000, 1, 1, 0, 0, 0, 0, 0⟩, true⟩).2.isSome = true := by
  decide

/-- C7 amended: `MarshalJSON` never returns an error for the Bool and Int
kinds; for the Timestamp kind it returns no error exactly when the instance
is absent, or its year lies in `[0, 9999]` and its zone offset magnitude is
under 24 hours (a sub-minute offset remainder is truncated by the
formatter, not an error). -/
theorem spec_C7_amended :
    (∀ b : BoolParam, (boolMarshalJSON b).2 = none) ∧
    (∀ i : IntParam, (intMarshalJSON i).2 = none) ∧
    (∀ t : TimeParam, (timeMarshalJSON t).2 = none ↔
      (t.present = false ∨
        (0 ≤ t.value.year ∧ t.value.year ≤ 9999 ∧ t.value.offset.natAbs < 86400))) := by
  refine ⟨fun b => ?_, fun i => rfl, fun t => ?_⟩
  · rcases b with ⟨v, p⟩
    cases v <;> cases p <;> rfl
  · rcases t with ⟨v, p⟩
    cases p
    · simp [timeMarshalJSON]
    · simp only [timeMarshalJSON, goTimeMarshalJSON, Bool.not_true, Bool.false_eq_true,
        if_false]
      split_ifs <;> simp_all
      all_goals omega

/-! ## C3 counterexample: the empty-quote sentinel bypasses the layout loop -/

theorem char_eq_iff_toNat {c d : Char} : c = d ↔ c.toNat = d.toNat :=
  ⟨fun h => by rw [h], fun h => by rw [← Char.ofNat_toNat c, ← Char.ofNat_toNat d, h]⟩

theorem dval_digitCh {d : Nat} (h : d < 10) : dval (digitCh d) = d := by
  interval_cases d <;> decide

theorem isDigitCh_digitCh {d : Nat} (h : d < 10) : isDigitCh (digitCh d) = true := by
  interval_cases d <;> decide

theorem isDigitCh_toNat {c : Char} (h : isDigitCh c = true) : 48 ≤ c.toNat ∧ c.toNat ≤ 57 := by
  simpa [isDigitCh] using h

theorem isWSCh_eq_false_of_toNat {c : Char}
    (h : c.toNat ≠ 32 ∧ c.toNat ≠ 9 ∧ c.toNat ≠ 10 ∧ c.toNat ≠ 13) : isWSCh c = false := by
  simp only [isWSCh, Bool.or_eq_false_iff, beq_eq_false_iff_ne, ne_eq, char_eq_iff_toNat]
  exact ⟨⟨⟨h.1, h.2.1⟩, h.2.2.1⟩, h.2.2.2⟩

theorem isWSCh_eq_false_of_digit {c : Char} (h : isDigitCh c = true) : isWSCh c = false := by
  have hb := isDigitCh_toNat h
  exact isWSCh_eq_false_of_toNat (by omega)

theorem digit_ne_of_toNat {c : Char} {d : Char} (h : isDigitCh c = true)
    (hd : d.toNat < 48 ∨ 57 < d.toNat) : c ≠ d := by
  have hb := isDigitCh_toNat h
  intro he
  rw [char_eq_iff_toNat] at he
  omega

/-! ## Digit string lemmas -/

theorem digitsVal_foldl (a : Nat) (cs : List Char) :
    cs.foldl (fun a c => 10 * a + dval c) a = a * 10 ^ cs.length + digitsVal cs := by
  induction cs generalizing a with
  | nil => simp [digitsVal]
  | cons c cs ih =>
    simp only [List.foldl_cons, digitsVal, List.length_cons]
    rw [ih (10 * a + dval c), ih (10 * 0 + dval c)]
    ring

theorem digitsVal_append (xs ys : List Char) :
    digitsVal (xs ++ ys) = digitsVal xs * 10 ^ ys.length + digitsVal ys := by
  simp only [digitsVal, List.foldl_append]
  rw [show List.foldl (fun a c => 10 * a + dval c) 0 xs = digitsVal xs from rfl,
    digitsVal_foldl]
  rfl

theorem digitsVal_singleton (c : Char) : digitsVal [c] = dval c := by
  simp [digitsVal]

theorem digitsVal_rev_map (ds : List Nat) (h : ∀ d ∈ ds, d < 10) :
    digitsVal ((ds.map digitCh).reverse) = Nat.ofDigits 10 ds := by
  induction ds with
  | nil => simp [digitsVal, Nat.ofDigits]
  | cons d ds ih =>
    simp only [List.map_cons, List.reverse_cons]
    rw [digitsVal_append, digitsVal_singleton, dval_digitCh (h d (by simp)),
      ih (fun x hx => h x (by simp [hx])), Nat.ofDigits_cons]
    simp only [List.length_singleton, pow_one]
    ring

theorem digitsVal_natToDec (n : Nat) : digitsVal (natToDec n) = n := by
  by_cases h : n = 0
  · subst h; decide
  · simp only [natToDec, if_neg h]
    rw [digitsVal_rev_map _ (fun d hd => Nat.digits_lt_base (by norm_num) hd)]
    exact Nat.ofDigits_digits 10 n

theorem natToDec_all_digits (n : Nat) : ∀ c ∈ natToDec n, isDigitCh c = true := by
  by_cases h : n = 0
  · subst h; decide
  · intro c hc
    simp only [natToDec, if_neg h, List.mem_reverse, List.mem_map] at hc
    obtain ⟨d, hd, rfl⟩ := hc
    exact isDigitCh_digitCh (Nat.digits_lt_base (by norm_num) hd)

theorem natToDec_ne_nil (n : Nat) : natToDec n ≠ [] := by
  by_cases h : n = 0
  · subst h; decide
  · simp only [natToDec, if_neg h, ne_eq, List.reverse_eq_nil_iff, List.map_eq_nil_iff]
    exact Nat.digits_ne_nil_iff_ne_zero.mpr h

theorem natToDec_head_pos {n : Nat} (h : n ≠ 0) :
    ∃ d, (natToDec n).head? = some (digitCh d) ∧ d ≠ 0 ∧ d < 10 := by
  have hne : Nat.digits 10 n ≠ [] := Nat.digits_ne_nil_iff_ne_zero.mpr h
  refine ⟨(Nat.digits 10 n).getLast hne, ?_, Nat.getLast_digit_ne_zero 10 h, ?_⟩
  · simp only [natToDec, if_neg h, List.head?_reverse]
    rw [List.getLast?_eq_getLast _ (by simpa using hne)]
    congr 1
    rw [List.getLast_map]
  · exact Nat.digits_lt_base (by norm_num) (List.getLast_mem hne)

/-! ## Trim lemmas -/

theorem dropWhile_cons_of_neg {p : Char → Bool} {c : Char} {cs : List Char} (h : p c = false) :
    (c :: cs).dropWhile p = c :: cs := by
  simp [List.dropWhile_cons, h]

theorem trimCharList_eq_self {p : Char → Bool} {cs : List Char}
    (h1 : ∀ c, cs.head? = some c → p c = false)
    (h2 : ∀ c, cs.getLast? = some c → p c = false) :
    trimCharList p cs = cs := by
  unfold trimCharList
  have e1 : cs.dropWhile p = cs := by
    cases cs with
    | nil => rfl
    | cons c rest => exact dropWhile_cons_of_neg (h1 c rfl)
  rw [e1]
  have e2 : cs.reverse.dropWhile p = cs.reverse := by
    cases hr : cs.reverse with
    | nil => rfl
    | cons c rest =>
      have hc : cs.getLast? = some c := by
        rw [← List.head?_reverse, hr]; rfl
      exact dropWhile_cons_of_neg (h2 c hc)
  rw [e2, List.reverse_reverse]

theorem mem_of_getLast?_eq {cs : List Char} {c : Char} (h : cs.getLast? = some c) : c ∈ cs := by
  have : c ∈ cs.reverse := List.mem_of_mem_head? (by rw [List.head?_reverse, h]; rfl)
  simpa using this

theorem trimCharList_eq_self_of_all {p : Char → Bool} {cs : List Char}
    (h : ∀ c ∈ cs, p c = false) : trimCharList p cs = cs :=
  trimCharList_eq_self
    (fun c hc => h c (List.mem_of_mem_head? (by rw [hc]; rfl)))
    (fun c hc => h c (mem_of_getLast?_eq hc))

theorem strTrimWS_eq_self {s : String} (h : ∀ c ∈ s.data, isWSCh c = false) :
    strTrimWS s = s := by
  unfold strTrimWS
  rw [trimCharList_eq_self_of_all h]

/-! ## JSON number grammar lemmas -/

theorem numDigits1_decomp {cs r : List Char} (h : numDigits1 cs = some r) :
    ∃ pre, cs = pre ++ r ∧ ∀ c ∈ pre, isDigitCh c = true := by
  cases cs with
  | nil => simp [numDigits1] at h
  | cons d rest =>
    simp only [numDigits1] at h
    by_cases hd : isDigitCh d = true
    · rw [if_pos hd] at h
      injection h with h
      refine ⟨(d :: rest).takeWhile isDigitCh, ?_, ?_⟩
      · rw [← h]
        simp [List.takeWhile_append_dropWhile]
      · intro x hx
        exact List.mem_takeWhile_imp hx
    · rw [if_neg hd] at h
      exact absurd h (by simp)

theorem numIntRest_decomp {cs r : List Char} (h : numIntRest cs = some r) :
    ∃ pre, cs = pre ++ r ∧ ∀ c ∈ pre, isDigitCh c = true := by
  cases cs with
  | nil => simp [numIntRest] at h
  | cons c rest =>
    simp only [numIntRest] at h
    by_cases h0 : (c == '0') = true
    · rw [if_pos h0] at h
      injection h with h
      refine ⟨[c], by simp [h], ?_⟩
      intro x hx
      simp only [List.mem_singleton] at hx
      subst hx
      have : x = '0' := by simpa using h0
      subst this
      decide
    · rw [if_neg h0] at h
      by_cases hd : isDigitCh c = true
      · rw [if_pos hd] at h
        injection h with h
        refine ⟨c :: rest.takeWhile isDigitCh, ?_, ?_⟩
        · rw [← h]
          simp [List.takeWhile_append_dropWhile]
        · intro x hx
          rcases List.mem_cons.mp hx with rfl | hx
          · exact hd
          · exact List.mem_takeWhile_imp hx
      · rw [if_neg hd] at h
        exact absurd h (by simp)

theorem numFracRest_decomp {cs r : List Char} (h : numFracRest cs = some r) :
    ∃ pre, cs = pre ++ r ∧ ∀ c ∈ pre, c = '.' ∨ isDigitCh c = true := by
  cases cs with
  | nil =>
    simp only [numFracRest, Option.some.injEq] at h
    exact ⟨[], by simp [← h], by simp⟩
  | cons c cs2 =>
    simp only [numFracRest] at h
    by_cases hc : (c == '.') = true
    · rw [if_pos hc] at h
      obtain ⟨pre, hpre, hall⟩ := numDigits1_decomp h
      refine ⟨c :: pre, by simp [hpre], ?_⟩
      intro x hx
      rcases List.mem_cons.mp hx with rfl | hx
      · exact Or.inl (by simpa using hc)
      · exact Or.inr (hall x hx)
    · rw [if_neg hc] at h
      injection h with h
      exact ⟨[], by simp [← h], by simp⟩

theorem numExpRest_decomp {cs r : List Char} (h : numExpRest cs = some r) :
    ∃ pre, cs = pre ++ r ∧
      ∀ c ∈ pre, c = 'e' ∨ c = 'E' ∨ c = '+' ∨ c = '-' ∨ isDigitCh c = true := by
  cases cs with
  | nil =>
    simp only [numExpRest, Option.some.injEq] at h
    exact ⟨[], by simp [← h], by simp⟩
  | cons c cs2 =>
    simp only [numExpRest] at h
    by_cases he : (c == 'e' || c == 'E') = true
    · rw [if_pos he] at h
      have hce : c = 'e' ∨ c = 'E' := by simpa using he
      have hcgoal : ∀ x, x = c → x = 'e' ∨ x = 'E' ∨ x = '+' ∨ x = '-' ∨ isDigitCh x = true := by
        rintro x rfl
        rcases hce with rfl | rfl
        · exact Or.inl rfl
        · exact Or.inr (Or.inl rfl)
      cases cs2 with
      | nil => simp at h
      | cons s cs4 =>
        by_cases hs : (s == '+' || s == '-') = true
        · simp only [hs, if_true] at h
          obtain ⟨pre, hpre, hall⟩ := numDigits1_decomp h
          refine ⟨c :: s :: pre, by simp [hpre], ?_⟩
          intro x hx
          rcases List.mem_cons.mp hx with rfl | hx
          · exact hcgoal x rfl
          rcases List.mem_cons.mp hx with rfl | hx
          · have : x = '+' ∨ x = '-' := by simpa using hs
            rcases this with rfl | rfl
            · exact Or.inr (Or.inr (Or.inl rfl))
            · exact Or.inr (Or.inr (Or.inr (Or.inl rfl)))
          · exact Or.inr (Or.inr (Or.inr (Or.inr (hall x hx))))
        · simp only [hs, Bool.false_eq_true, if_false] at h
          obtain ⟨pre, hpre, hall⟩ := numDigits1_decomp h
          refine ⟨c :: pre, by simp [hpre], ?_⟩
          intro x hx
          rcases List.mem_cons.mp hx with rfl | hx
          · exact hcgoal x rfl
          · exact Or.inr (Or.inr (Or.inr (Or.inr (hall x hx))))
    · rw [if_neg he] at h
      injection h with h
      exact ⟨[], by simp [← h], by simp⟩

theorem validNumParts {cs1 : List Char}
    (h : ((numIntRest cs1).bind numFracRest).bind numExpRest = some []) :
    ∀ c ∈ cs1, c = '-' ∨ c = '+' ∨ c = '.' ∨ c = 'e' ∨ c = 'E' ∨ isDigitCh c = true := by
  rw [Option.bind_eq_some] at h
  obtain ⟨r3, hb, h3⟩ := h
  rw [Option.bind_eq_some] at hb
  obtain ⟨r2, h1, h2⟩ := hb
  obtain ⟨p1, e1, m1⟩ := numIntRest_decomp h1
  obtain ⟨p2, e2, m2⟩ := numFracRest_decomp h2
  obtain ⟨p3, e3, m3⟩ := numExpRest_decomp h3
  intro c hc
  rw [e1, e2, e3] at hc
  simp only [List.append_nil, List.mem_append] at hc
  rcases hc with hc | hc | hc
  · exact Or.inr (Or.inr (Or.inr (Or.inr (Or.inr (m1 c hc)))))
  · rcases m2 c hc with rfl | hd
    · exact Or.inr (Or.inr (Or.inl rfl))
    · exact Or.inr (Or.inr (Or.inr (Or.inr (Or.inr hd))))
  · rcases m3 c hc with rfl | rfl | rfl | rfl | hd
    · exact Or.inr (Or.inr (Or.inr (Or.inl rfl)))
    · exact Or.inr (Or.inr (Or.inr (Or.inr (Or.inl rfl))))
    · exact Or.inr (Or.inl rfl)
    · exact Or.inl rfl
    · exact Or.inr (Or.inr (Or.inr (Or.inr (Or.inr hd))))

theorem validJSONNumber_destruct {cs : List Char} (h : isValidJSONNumber cs = true) :
    ∃ c0 r, cs = c0 :: r ∧ (c0 = '-' ∨ isDigitCh c0 = true) ∧
      ∀ c ∈ cs, c = '-' ∨ c = '+' ∨ c = '.' ∨ c = 'e' ∨ c = 'E' ∨ isDigitCh c = true := by
  cases cs with
  | nil => exact absurd h (by decide)
  | cons c0 r =>
    simp only [isValidJSONNumber] at h
    by_cases hm : (c0 == '-') = true
    · simp only [hm, if_true] at h
      have hbind : ((numIntRest r).bind numFracRest).bind numExpRest = some [] := by
        cases hb : ((numIntRest r).bind numFracRest).bind numExpRest with
        | none => rw [hb] at h; simp at h
        | some r4 =>
          rw [hb] at h
          simp only [List.isEmpty_iff] at h
          rw [h]
      have hch := validNumParts hbind
      have hc0 : c0 = '-' := by simpa using hm
      refine ⟨c0, r, rfl, Or.inl hc0, ?_⟩
      intro c hc
      rcases List.mem_cons.mp hc with rfl | hc
      · exact Or.inl hc0
      · exact hch c hc
    · simp only [hm, Bool.false_eq_true, if_false] at h
      have hbind : ((numIntRest (c0 :: r)).bind numFracRest).bind numExpRest = some [] := by
        cases hb : ((numIntRest (c0 :: r)).bind numFracRest).bind numExpRest with
        | none => rw [hb] at h; simp at h
        | some r4 =>
          rw [hb] at h
          simp only [List.isEmpty_iff] at h
          rw [h]
      have hch := validNumParts hbind
      have hc0d : isDigitCh c0 = true := by
        have h1 : ∃ r2, numIntRest (c0 :: r) = some r2 := by
          rw [Option.bind_eq_some] at hbind
          obtain ⟨r3, hb2, _⟩ := hbind
          rw [Option.bind_eq_some] at hb2
          obtain ⟨r2, h1, _⟩ := hb2
          exact ⟨r2, h1⟩
        obtain ⟨r2, h1⟩ := h1
        simp only [numIntRest] at h1
        by_cases h0 : (c0 == '0') = true
        · have : c0 = '0' := by simpa using h0
          subst this
          decide
        · rw [if_neg h0] at h1
          by_cases hd : isDigitCh c0 = true
          · exact hd
          · rw [if_neg hd] at h1
            exact absurd h1 (by simp)
      refine ⟨c0, r, rfl, Or.inr hc0d, ?_⟩
      intro c hc
      exact hch c hc

theorem validJSONNumber_props {s : String} (h : isValidJSONNumber s.data = true) :
    s ≠ "" ∧ s ≠ "null" ∧ strTrimWS s = s ∧ headIsQuote s.data = false := by
  obtain ⟨c0, r, hs, hc0, hall⟩ := validJSONNumber_destruct h
  have hws : ∀ c ∈ s.data, isWSCh c = false := by
    intro c hc
    rcases hall c hc with rfl | rfl | rfl | rfl | rfl | hd
    · decide
    · decide
    · decide
    · decide
    · decide
    · exact isWSCh_eq_false_of_digit hd
  refine ⟨?_, ?_, strTrimWS_eq_self hws, ?_⟩
  · intro he
    rw [he] at hs
    simp at hs
  · intro he
    rw [he] at hs
    have hn : c0 = 'n' := by
      have hd : ("null" : String).data = ['n', 'u', 'l', 'l'] := rfl
      rw [hd] at hs
      injection hs with h1 _
      exact h1.symm
    subst hn
    rcases hc0 with h' | h'
    · exact absurd h' (by decide)
    · exact absurd h' (by decide)
  · rw [hs]
    simp only [headIsQuote]
    rcases hc0 with rfl | hd
    · decide
    · simpa [beq_eq_false_iff_ne] using digit_ne_of_toNat hd (by left; decide)

theorem jsonUnmarshalNumber_of_plain {s : String} (hv : isValidJSONNumber s.data = true) :
    jsonUnmarshalNumber s = .ok s := by
  obtain ⟨hne, hnn, ht, hq⟩ := validJSONNumber_props hv
  simp only [jsonUnmarshalNumber, ht, if_neg hnn, hq, Bool.false_eq_true, if_false, hv, if_true]

theorem intUnmarshalJSON_of_plain {i : IntParam} {s : String}
    (hv : isValidJSONNumber s.data = true) :
    intUnmarshalJSON i s =
      (match parseInt64 s with
        | .ok n => ({ value := n, present := true }, none)
        | .synErr => ({ value := 0, present := false }, some (.numSynErr s))
        | .rangeErr => ({ value := 0, present := false }, some (.numRangeErr s))) := by
  obtain ⟨hne, hnn, _, _⟩ := validJSONNumber_props hv
  simp only [intUnmarshalJSON]
  rw [if_neg (by rintro (he | he) <;> [exact hne he; exact hnn he])]
  rw [jsonUnmarshalNumber_of_plain hv]

/-! ## `strconv.ParseInt` lemmas -/

theorem parseInt64_digits {ds : List Char} (hne : ds ≠ [])
    (hall : ∀ c ∈ ds, isDigitCh c = true) :
    parseInt64 ⟨ds⟩ =
      if digitsVal ds < 2 ^ 63 then .ok ((digitsVal ds : Nat) : Int) else .rangeErr := by
  obtain ⟨c, r, rfl⟩ := List.exists_cons_of_ne_nil hne
  have hcd : isDigitCh c = true := hall c (by simp)
  have hm : (c == '-') = false := by
    simpa [beq_eq_false_iff_ne] using digit_ne_of_toNat hcd (by left; decide)
  have hp : (c == '+') = false := by
    simpa [beq_eq_false_iff_ne] using digit_ne_of_toNat hcd (by left; decide)
  have hallb : (c :: r).all isDigitCh = true := List.all_eq_true.mpr hall
  simp only [parseInt64, hm, hp, Bool.false_eq_true, if_false, hallb]
  simp

theorem parseInt64_neg_digits {ds : List Char} (hne : ds ≠ [])
    (hall : ∀ c ∈ ds, isDigitCh c = true) :
    parseInt64 ⟨'-' :: ds⟩ =
      if digitsVal ds ≤ 2 ^ 63 then .ok (-((digitsVal ds : Nat) : Int)) else .rangeErr := by
  have hallb : ds.all isDigitCh = true := List.all_eq_true.mpr hall
  have hnee : ds.isEmpty = false := by
    cases ds with
    | nil => exact absurd rfl hne
    | cons a b => rfl
  simp only [parseInt64, show (('-' : Char) == '-') = true from rfl, if_true, hallb, hnee]
  simp

theorem numIntRest_natToDec (n : Nat) : numIntRest (natToDec n) = some [] := by
  by_cases h : n = 0
  · subst h; decide
  · obtain ⟨d, hh, hd0, hd10⟩ := natToDec_head_pos h
    obtain ⟨c0, rest, hcons⟩ := List.exists_cons_of_ne_nil (natToDec_ne_nil n)
    rw [hcons] at hh
    have hc0 : c0 = digitCh d := by simpa using hh
    have hall := natToDec_all_digits n
    rw [hcons] at hall
    have hrest : ∀ c ∈ rest, isDigitCh c = true := fun c hc => hall c (List.mem_cons_of_mem _ hc)
    have hc0d : isDigitCh c0 = true := hall c0 (List.mem_cons_self _ _)
    have h0 : (c0 == '0') = false := by
      subst hc0
      have h1d : 1 ≤ d := Nat.pos_of_ne_zero hd0
      interval_cases d <;> decide
    rw [hcons]
    simp only [numIntRest, h0, Bool.false_eq_true, if_false, hc0d, if_true,
      List.dropWhile_eq_nil_iff.mpr hrest]

theorem validJSONNumber_natToDec (n : Nat) : isValidJSONNumber (natToDec n) = true := by
  obtain ⟨c0, rest, hcons⟩ := List.exists_cons_of_ne_nil (natToDec_ne_nil n)
  have hc0d : isDigitCh c0 = true := by
    have hall := natToDec_all_digits n
    rw [hcons] at hall
    exact hall c0 (List.mem_cons_self _ _)
  have hm : (c0 == '-') = false := by
    simpa [beq_eq_false_iff_ne] using digit_ne_of_toNat hc0d (by left; decide)
  have hint := numIntRest_natToDec n
  rw [hcons] at hint
  rw [hcons]
  simp only [isValidJSONNumber, hm, Bool.false_eq_true, if_false, hint]
  decide

theorem validJSONNumber_formatInt (v : Int) : isValidJSONNumber (formatInt v).data = true := by
  by_cases hv : v < 0
  · have hdata : (formatInt v).data = '-' :: natToDec v.natAbs := by
      simp [formatInt, hv]
    rw [hdata]
    simp only [isValidJSONNumber, show (('-' : Char) == '-') = true from rfl, if_true,
      numIntRest_natToDec]
    decide
  · have hdata : (formatInt v).data = natToDec v.toNat := by
      simp [formatInt, hv]
    rw [hdata]
    exact validJSONNumber_natToDec _

theorem parseInt64_formatInt {v : Int} (h1 : -(2 ^ 63) ≤ v) (h2 : v < 2 ^ 63) :
    parseInt64 (formatInt v) = .ok v := by
  by_cases hv : v < 0
  · have hdata : formatInt v = ⟨'-' :: natToDec v.natAbs⟩ := by
      simp [formatInt, hv]
    rw [hdata, parseInt64_neg_digits (natToDec_ne_nil _) (natToDec_all_digits _),
      digitsVal_natToDec]
    rw [if_pos (by omega)]
    congr 1
    omega
  · have hdata : formatInt v = ⟨natToDec v.toNat⟩ := by
      simp [formatInt, hv]
    rw [hdata, parseInt64_digits (natToDec_ne_nil _) (natToDec_all_digits _),
      digitsVal_natToDec]
    rw [if_pos (by omega)]
    congr 1
    omega

theorem intUnmarshal_formatInt (i : IntParam) {v : Int} (h1 : -(2 ^ 63) ≤ v) (h2 : v < 2 ^ 63) :
    intUnmarshalJSON i (formatInt v) = ({ value := v, present := true }, none) := by
  rw [intUnmarshalJSON_of_plain (validJSONNumber_formatInt v), parseInt64_formatInt h1 h2]

/-! ## C9: non-integral numeric literals are rejected -/

/-- C9: for any numeric input token (a valid JSON number literal) that is
not an exact base-10 integer (it contains a fraction dot or exponent
marker), `Int.UnmarshalJSON` returns a parse error and leaves the instance
not present with value 0. -/
theorem spec_C9 :
    ∀ (i : IntParam) (data : String), isValidJSONNumber data.data = true →
      hasNonIntegerPart data = true →
      intUnmarshalJSON i data = (⟨0, false⟩, some (.numSynErr data)) := by
  intro i data hv hf
  rw [intUnmarshalJSON_of_plain hv]
  have hsyn : parseInt64 data = .synErr := by
    obtain ⟨x, hx, hxs⟩ : ∃ x, x ∈ data.data ∧ (x == '.' || x == 'e' || x == 'E') = true := by
      simpa [hasNonIntegerPart, List.any_eq_true] using hf
    have hxne : x = '.' ∨ x = 'e' ∨ x = 'E' := by
      have := hxs
      simp only [Bool.or_eq_true, beq_iff_eq] at this
      tauto
    have hxnd : isDigitCh x = false := by
      rcases hxne with rfl | rfl | rfl <;> decide
    have hxm : x ≠ '-' := by
      rcases hxne with rfl | rfl | rfl <;> decide
    obtain ⟨c0, r, hs, hc0, _⟩ := validJSONNumber_destruct hv
    simp only [parseInt64, hs]
    by_cases hm : (c0 == '-') = true
    · simp only [hm, if_true]
      have hc0v : c0 = '-' := by simpa using hm
      have hxr : x ∈ r := by
        rw [hs] at hx
        rcases List.mem_cons.mp hx with h' | hxr
        · exact absurd (h'.trans hc0v) hxm
        · exact hxr
      have hallf : r.all isDigitCh = false := by
        rw [Bool.eq_false_iff]
        intro hall
        have := List.all_eq_true.mp hall x hxr
        rw [hxnd] at this
        exact Bool.false_ne_true this
      simp [hallf]
    · have hm' : (c0 == '-') = false := by simpa using hm
      have hc0d : isDigitCh c0 = true := by
        rcases hc0 with h' | h'
        · exact absurd h' (by simpa using hm)
        · exact h'
      have hp : (c0 == '+') = false := by
        simpa [beq_eq_false_iff_ne] using digit_ne_of_toNat hc0d (by left; decide)
      have hxr : x ∈ c0 :: r := by
        rw [hs] at hx
        exact hx
      have hallf : (c0 :: r).all isDigitCh = false := by
        rw [Bool.eq_false_iff]
        intro hall
        have := List.all_eq_true.mp hall x hxr
        rw [hxnd] at this
        exact Bool.false_ne_true this
      simp only [hm', hp, Bool.false_eq_true, if_false]
      simp [hallf]
  rw [hsyn]

/-- Witness for C9 at the literal `1.5`. -/
theorem spec_C9_witness :
    isValidJSONNumber ("1.5" : String).data = true ∧ hasNonIntegerPart "1.5" = true ∧
    intUnmarshalJSON ⟨3, true⟩ "1.5" = (⟨0, false⟩, some (.numSynErr "1.5")) :=
  ⟨by decide, by decide, spec_C9 ⟨3, true⟩ "1.5" (by decide) (by decide)⟩

/-! ## JSON string codec lemmas -/

theorem char_ofNat_eq {c : Char} {n : Nat} (h : c.toNat = n) : Char.ofNat n = c := by
  rw [← h, Char.ofNat_toNat]

theorem hexVal_hexDigitCh {m : Nat} (h : m < 16) : hexVal (hexDigitCh m) = some m := by
  interval_cases m <;> decide

theorem hex4_00 {x y : Char} {a b : Nat} (hx : hexVal x = some a) (hy : hexVal y = some b) :
    hex4 '0' '0' x y = some (16 * a + b) := by
  simp [hex4, hx, hy, show hexVal '0' = some 0 from by decide]

theorem decStr_plainCh {c : Char} {rest : List Char} (h1 : ¬ c = '"') (h2 : ¬ c = '\\')
    (h3 : ¬ c.toNat < 32) :
    decStr (c :: rest) = (decStr rest).map (fun r => c :: r) := by
  conv_lhs => rw [decStr.eq_def]
  simp only [h1, h2, h3, if_false]

theorem decStr_quote_nil : decStr ['"'] = some [] := by
  conv_lhs => rw [decStr.eq_def]
  simp

theorem decStr_esc {e ec : Char} {rest : List Char} (he : ¬ e = 'u') (h : escCh e = some ec) :
    decStr ('\\' :: e :: rest) = (decStr rest).map (fun r => ec :: r) := by
  conv_lhs => rw [decStr.eq_def]
  simp only [reduceIte]
  split
  · rename_i heq
    exact absurd heq (by decide)
  · split
    · rename_i heq
      injection heq with h1 _
      exact absurd h1 he
    · rename_i heq
      injection heq with h1 _
      exact absurd h1 he
    · rename_i e' cs2' heq
      injection heq with h1 h2
      subst h1
      subst h2
      rw [h]
    · rename_i heq
      exact absurd heq (by simp)

theorem decStr_u {a b c3 d : Char} {n : Nat} {rest : List Char}
    (h : hex4 a b c3 d = some n) (hn : n < 0xD800) :
    decStr ('\\' :: 'u' :: a :: b :: c3 :: d :: rest) =
      (decStr rest).map (fun r => Char.ofNat n :: r) := by
  conv_lhs => rw [decStr.eq_def]
  simp only [reduceIte]
  split
  · rename_i heq
    exact absurd heq (by decide)
  · split
    · rename_i a' b' c' d' a2 b2 c4 d2 cs4 heq
      injection heq with e1 heq
      injection heq with e2 heq
      injection heq with e3 heq
      injection heq with e4 heq
      injection heq with e5 heq
      subst e2; subst e3; subst e4; subst e5
      rw [h]
      simp [hn, heq]
    · rename_i a' b' c' d' cs3 hne heq
      injection heq with e1 heq
      injection heq with e2 heq
      injection heq with e3 heq
      injection heq with e4 heq
      injection heq with e5 heq
      subst e2; subst e3; subst e4; subst e5; subst heq
      rw [h]
      simp [hn]
    · rename_i e' cs2' hne1 hne2 heq
      injection heq with e1 heq2
      exact (hne2 a b c3 d rest e1.symm heq2.symm).elim
    · rename_i heq
      exact absurd heq (by simp)

theorem decStr_encBody (cs : List Char) : decStr (encBody cs) = some cs := by
  induction cs with
  | nil => exact decStr_quote_nil
  | cons c cs ih =>
    simp only [encBody]
    by_cases h1 : c = '"'
    · subst h1
      rw [show encCh '"' = ['\\', '"'] from by decide, List.cons_append, List.cons_append,
        List.nil_append, decStr_esc (by decide) (show escCh '"' = some '"' from by decide), ih]
      rfl
    · by_cases h2 : c = '\\'
      · subst h2
        rw [show encCh '\\' = ['\\', '\\'] from by decide, List.cons_append, List.cons_append,
          List.nil_append, decStr_esc (by decide) (show escCh '\\' = some '\\' from by decide),
          ih]
        rfl
      · by_cases h3 : c.toNat = 10
        · simp only [encCh, if_neg h1, if_neg h2, if_pos h3]
          rw [List.cons_append, List.cons_append, List.nil_append,
            decStr_esc (by decide) (show escCh 'n' = some (Char.ofNat 10) from by decide), ih]
          rw [char_ofNat_eq h3]
          rfl
        · by_cases h4 : c.toNat = 13
          · simp only [encCh, if_neg h1, if_neg h2, if_neg h3, if_pos h4]
            rw [List.cons_append, List.cons_append, List.nil_append,
              decStr_esc (by decide) (show escCh 'r' = some (Char.ofNat 13) from by decide), ih]
            rw [char_ofNat_eq h4]
            rfl
          · by_cases h5 : c.toNat = 9
            · simp only [encCh, if_neg h1, if_neg h2, if_neg h3, if_neg h4, if_pos h5]
              rw [List.cons_append, List.cons_append, List.nil_append,
                decStr_esc (by decide) (show escCh 't' = some (Char.ofNat 9) from by decide), ih]
              rw [char_ofNat_eq h5]
              rfl
            · by_cases h6 : c.toNat < 32
              · simp only [encCh, if_neg h1, if_neg h2, if_neg h3, if_neg h4, if_neg h5,
                  if_pos h6]
                have hh : hex4 '0' '0' (hexDigitCh (c.toNat / 16)) (hexDigitCh (c.toNat % 16)) =
                    some c.toNat := by
                  rw [hex4_00 (hexVal_hexDigitCh (by omega)) (hexVal_hexDigitCh (by omega))]
                  rw [Nat.div_add_mod]
                simp only [List.cons_append, List.nil_append]
                rw [decStr_u hh (by omega), ih, char_ofNat_eq rfl]
                rfl
              · by_cases h7 : c = '<' ∨ c = '>' ∨ c = '&'
                · simp only [encCh, if_neg h1, if_neg h2, if_neg h3, if_neg h4, if_neg h5,
                    if_neg h6, if_pos h7]
                  have hlt : ¬ c.toNat < 55296 → False := by
                    intro hc
                    rcases h7 with rfl | rfl | rfl <;> simp at hc
                  have hh : hex4 '0' '0' (hexDigitCh (c.toNat / 16)) (hexDigitCh (c.toNat % 16)) =
                      some c.toNat := by
                    have hb : c.toNat < 256 := by
                      rcases h7 with rfl | rfl | rfl <;> decide
                    rw [hex4_00 (hexVal_hexDigitCh (by omega)) (hexVal_hexDigitCh (by omega))]
                    rw [Nat.div_add_mod]
                  simp only [List.cons_append, List.nil_append]
                  rw [decStr_u hh (by rcases h7 with rfl | rfl | rfl <;> decide), ih,
                    char_ofNat_eq rfl]
                  rfl
                · by_cases h8 : c.toNat = 0x2028
                  · simp only [encCh, if_neg h1, if_neg h2, if_neg h3, if_neg h4, if_neg h5,
                      if_neg h6, if_neg h7, if_pos h8]
                    simp only [List.cons_append, List.nil_append]
                    rw [decStr_u (show hex4 '2' '0' '2' '8' = some 0x2028 from by decide)
                      (by decide), ih, char_ofNat_eq h8]
                    rfl
                  · by_cases h9 : c.toNat = 0x2029
                    · simp only [encCh, if_neg h1, if_neg h2, if_neg h3, if_neg h4, if_neg h5,
                        if_neg h6, if_neg h7, if_neg h8, if_pos h9]
                      simp only [List.cons_append, List.nil_append]
                      rw [decStr_u (show hex4 '2' '0' '2' '9' = some 0x2029 from by decide)
                        (by decide), ih, char_ofNat_eq h9]
                      rfl
                    · simp only [encCh, if_neg h1, if_neg h2, if_neg h3, if_neg h4, if_neg h5,
                        if_neg h6, if_neg h7, if_neg h8, if_neg h9]
                      simp only [List.cons_append, List.nil_append]
                      rw [decStr_plainCh h1 h2 h6, ih]
                      rfl

theorem jsonDecode_jsonEncode (s : String) :
    jsonDecodeStringToken (jsonEncodeString s) = some s := by
  simp only [jsonDecodeStringToken, jsonEncodeString]
  simp only [if_true, decStr_encBody]
  rfl

theorem encBody_getLast (cs : List Char) : (encBody cs).getLast? = some '"' := by
  induction cs with
  | nil => rfl
  | cons c cs ih =>
    simp only [encBody, List.getLast?_append, ih]
    rfl

theorem jsonEncodeString_ne_empty (v : String) : jsonEncodeString v ≠ "" := by
  intro he
  have h := congrArg String.data he
  simp only [jsonEncodeString] at h
  simp at h

theorem jsonEncodeString_ne_null (v : String) : jsonEncodeString v ≠ "null" := by
  intro he
  have h := congrArg String.data he
  simp only [jsonEncodeString] at h
  injection h with hh _
  exact absurd hh (by decide)

theorem strTrimWS_jsonEncodeString (v : String) :
    strTrimWS (jsonEncodeString v) = jsonEncodeString v := by
  unfold strTrimWS
  have ha : ∀ c, (jsonEncodeString v).data.head? = some c → isWSCh c = false := by
    intro c hc
    simp only [jsonEncodeString] at hc
    injection hc with hc
    subst hc
    decide
  have hb : ∀ c, (jsonEncodeString v).data.getLast? = some c → isWSCh c = false := by
    intro c hc
    have h2 : (jsonEncodeString v).data.getLast? = some '"' := by
      show ('"' :: encBody v.data).getLast? = some '"'
      rw [show ('"' :: encBody v.data) = ['"'] ++ encBody v.data from rfl,
        List.getLast?_append, encBody_getLast v.data]
      rfl
    rw [h2] at hc
    injection hc with hc
    subst hc
    decide
  rw [trimCharList_eq_self ha hb]

theorem stringUnmarshal_encode (prev : StringParam) (v : String) :
    stringUnmarshalJSON prev (jsonEncodeString v) = ({ value := v, present := true }, none) := by
  simp only [stringUnmarshalJSON]
  rw [if_neg (by
    rintro (he | he)
    · exact jsonEncodeString_ne_empty v he
    · exact jsonEncodeString_ne_null v he)]
  have hjs : jsonUnmarshalGoString (jsonEncodeString v) = .ok v := by
    simp only [jsonUnmarshalGoString, strTrimWS_jsonEncodeString,
      if_neg (jsonEncodeString_ne_null v), jsonDecode_jsonEncode]
  rw [hjs]

/-! ## C6: quoted-vs-bare equivalence -/

theorem encCh_of_num {c : Char}
    (h : c = '-' ∨ c = '+' ∨ c = '.' ∨ c = 'e' ∨ c = 'E' ∨ isDigitCh c = true) :
    encCh c = [c] := by
  rcases h with rfl | rfl | rfl | rfl | rfl | hd
  · decide
  · decide
  · decide
  · decide
  · decide
  · have hb := isDigitCh_toNat hd
    simp only [encCh]
    rw [if_neg (digit_ne_of_toNat hd (Or.inl (by decide))),
      if_neg (digit_ne_of_toNat hd (Or.inr (by decide))),
      if_neg (show ¬c.toNat = 10 by omega),
      if_neg (show ¬c.toNat = 13 by omega),
      if_neg (show ¬c.toNat = 9 by omega),
      if_neg (show ¬c.toNat < 32 by omega),
      if_neg (show ¬(c = '<' ∨ c = '>' ∨ c = '&') by
        rintro (rfl | rfl | rfl) <;> exact absurd hb (by decide)),
      if_neg (show ¬c.toNat = 0x2028 by omega),
      if_neg (show ¬c.toNat = 0x2029 by omega)]

theorem encBody_of_plain {cs : List Char} (h : ∀ c ∈ cs, encCh c = [c]) :
    encBody cs = cs ++ ['"'] := by
  induction cs with
  | nil => rfl
  | cons c cs ih =>
    simp only [encBody, h c (by simp), ih (fun x hx => h x (by simp [hx]))]
    rfl

theorem quoted_data (s : String) :
    (("\"" ++ s ++ "\"" : String)).data = '"' :: (s.data ++ ['"']) := by
  simp [String.data_append]

theorem quoted_ne_empty (s : String) : ("\"" ++ s ++ "\"" : String) ≠ "" := by
  intro he
  have h := congrArg String.data he
  rw [quoted_data] at h
  simp at h

theorem quoted_ne_null (s : String) : ("\"" ++ s ++ "\"" : String) ≠ "null" := by
  intro he
  have h := congrArg String.data he
  rw [quoted_data] at h
  injection h with hh _
  exact absurd hh (by decide)

theorem strTrimWS_quoted (s : String) :
    strTrimWS ("\"" ++ s ++ "\"") = ("\"" ++ s ++ "\"" : String) := by
  unfold strTrimWS
  have ha : ∀ c, (("\"" ++ s ++ "\"" : String)).data.head? = some c → isWSCh c = false := by
    intro c hc
    rw [quoted_data] at hc
    injection hc with hc
    subst hc
    decide
  have hb : ∀ c, (("\"" ++ s ++ "\"" : String)).data.getLast? = some c → isWSCh c = false := by
    intro c hc
    rw [quoted_data, show '"' :: (s.data ++ ['"']) = ('"' :: s.data) ++ ['"'] from rfl,
      List.getLast?_concat] at hc
    injection hc with hc
    subst hc
    decide
  rw [trimCharList_eq_self ha hb]

theorem jsonDecode_quoted_plain {s : String} (h : ∀ c ∈ s.data, encCh c = [c]) :
    jsonDecodeStringToken ("\"" ++ s ++ "\"") = some s := by
  simp only [jsonDecodeStringToken, quoted_data]
  rw [show s.data ++ ['"'] = encBody s.data from (encBody_of_plain h).symm]
  simp only [if_true, decStr_encBody]
  rfl

/-- C6: for Bool, decoding the quoted tokens `"true"`/`"false"` gives
exactly the same result as decoding the bare tokens; for Int, decoding a
quoted base-10 integer literal (a valid JSON number with no fraction or
exponent part) gives exactly the same `(value, present, error)` result as
decoding the bare literal. -/
theorem spec_C6 :
    (∀ b : BoolParam,
      boolUnmarshalJSON b "\"true\"" = boolUnmarshalJSON b "true" ∧
      boolUnmarshalJSON b "\"false\"" = boolUnmarshalJSON b "false") ∧
    (∀ (i : IntParam) (s : String), isValidJSONNumber s.data = true →
      hasNonIntegerPart s = false →
      intUnmarshalJSON i ("\"" ++ s ++ "\"") = intUnmarshalJSON i s) := by
  constructor
  · intro b
    exact ⟨rfl, rfl⟩
  · intro i s hv _
    obtain ⟨c0, r, hs, hc0, hall⟩ := validJSONNumber_destruct hv
    have hplain : ∀ c ∈ s.data, encCh c = [c] := fun c hc => encCh_of_num (hall c hc)
    have hlhs : intUnmarshalJSON i ("\"" ++ s ++ "\"") =
        (match parseInt64 s with
          | .ok n => ({ value := n, present := true }, none)
          | .synErr => ({ value := 0, present := false }, some (.numSynErr s))
          | .rangeErr => ({ value := 0, present := false }, some (.numRangeErr s))) := by
      simp only [intUnmarshalJSON]
      rw [if_neg (by
        rintro (he | he)
        · exact quoted_ne_empty s he
        · exact quoted_ne_null s he)]
      have hnum : jsonUnmarshalNumber ("\"" ++ s ++ "\"") = .ok s := by
        simp only [jsonUnmarshalNumber, strTrimWS_quoted, if_neg (quoted_ne_null s)]
        have hq : headIsQuote (("\"" ++ s ++ "\"" : String)).data = true := by
          rw [quoted_data]
          rfl
        simp only [hq, if_true, jsonDecode_quoted_plain hplain, hv, if_true]
      rw [hnum]
    rw [hlhs, intUnmarshalJSON_of_plain hv]

/-- Witness for C6 at the quoted literal `"123"` versus the bare `123`. -/
theorem spec_C6_witness :
    isValidJSONNumber ("123" : String).data = true ∧ hasNonIntegerPart "123" = false ∧
    intUnmarshalJSON ⟨0, false⟩ ("\"" ++ "123" ++ "\"") = intUnmarshalJSON ⟨0, false⟩ "123" :=
  ⟨by decide, by decide, spec_C6.2 ⟨0, false⟩ "123" (by decide) (by decide)⟩

/-! ## Fixed-width digit parsing lemmas -/

theorem padDigits_length (k n : Nat) : (padDigits k n).length = k := by
  induction k generalizing n with
  | zero => rfl
  | succ k ih => simp [padDigits, ih]

theorem padDigits_all_digits {k n : Nat} (h : n < 10 ^ k) :
    ∀ c ∈ padDigits k n, isDigitCh c = true := by
  induction k generalizing n with
  | zero => simp [padDigits]
  | succ k ih =>
    intro c hc
    simp only [padDigits] at hc
    rcases List.mem_cons.mp hc with rfl | hc
    · refine isDigitCh_digitCh ?_
      refine Nat.div_lt_of_lt_mul ?_
      rw [← pow_succ]
      exact h
    · exact ih (Nat.mod_lt _ (by positivity)) c hc

theorem padDigits_cons (k n : Nat) :
    ∃ c rest, padDigits (k + 1) n = c :: rest ∧ isDigitCh c = true ∧ n / 10 ^ k < 10 → True := by
  exact ⟨digitCh (n / 10 ^ k), padDigits k (n % 10 ^ k), fun _ => trivial⟩

theorem padDigits_ne_nil (k n : Nat) : padDigits (k + 1) n ≠ [] := by
  simp [padDigits]

theorem parseFixedAux_pad {k : Nat} : ∀ {n acc : Nat} {rest : List Char}, n < 10 ^ k →
    parseFixedAux k acc (padDigits k n ++ rest) = some (acc * 10 ^ k + n, rest) := by
  induction k with
  | zero =>
    intro n acc rest h
    have hn : n = 0 := by omega
    subst hn
    simp [padDigits, parseFixedAux]
  | succ k ih =>
    intro n acc rest h
    have hdlt : n / 10 ^ k < 10 := by
      refine Nat.div_lt_of_lt_mul ?_
      rw [← pow_succ]
      exact h
    simp only [padDigits, List.cons_append, parseFixedAux, isDigitCh_digitCh hdlt, if_true]
    rw [dval_digitCh hdlt]
    simp only [List.append_eq]
    rw [ih (Nat.mod_lt _ (by positivity))]
    refine congrArg some (Prod.ext ?_ rfl)
    show (10 * acc + n / 10 ^ k) * 10 ^ k + n % 10 ^ k = acc * 10 ^ (k + 1) + n
    conv_rhs => rw [← Nat.div_add_mod n (10 ^ k)]
    ring

theorem parseFixed_pad {k n : Nat} (h : n < 10 ^ k) {rest : List Char} :
    parseFixed k (padDigits k n ++ rest) = some (n, rest) := by
  unfold parseFixed
  rw [parseFixedAux_pad h]
  simp

theorem parseFixed_pad_nil {k n : Nat} (h : n < 10 ^ k) :
    parseFixed k (padDigits k n) = some (n, []) := by
  have h2 := @parseFixed_pad k n h []
  simpa using h2

theorem expectCh_cons (c : Char) (rest : List Char) : expectCh c (c :: rest) = some rest := by
  simp [expectCh]

theorem padDigits_val {k n : Nat} (h : n < 10 ^ k) : digitsVal (padDigits k n) = n := by
  induction k generalizing n with
  | zero =>
    have hn : n = 0 := by omega
    subst hn
    rfl
  | succ k ih =>
    have hdlt : n / 10 ^ k < 10 := by
      refine Nat.div_lt_of_lt_mul ?_
      rw [← pow_succ]
      exact h
    have : padDigits (k + 1) n = [digitCh (n / 10 ^ k)] ++ padDigits k (n % 10 ^ k) := rfl
    rw [this, digitsVal_append, digitsVal_singleton, dval_digitCh hdlt,
      ih (Nat.mod_lt _ (by positivity)), padDigits_length]
    conv_rhs => rw [← Nat.div_add_mod n (10 ^ k)]
    ring

/-! ## Fraction formatting lemmas -/

theorem takeWhile_all_append {p : Char → Bool} {xs ys : List Char}
    (hx : ∀ c ∈ xs, p c = true) (hy : ∀ c, ys.head? = some c → p c = false) :
    (xs ++ ys).takeWhile p = xs ∧ (xs ++ ys).dropWhile p = ys := by
  induction xs with
  | nil =>
    constructor
    · cases ys with
      | nil => rfl
      | cons c r => simp [List.takeWhile_cons, hy c rfl]
    · cases ys with
      | nil => rfl
      | cons c r => simp [List.dropWhile_cons, hy c rfl]
  | cons x xs ih =>
    obtain ⟨iht, ihd⟩ := ih (fun c hc => hx c (by simp [hc]))
    constructor
    · simp [List.takeWhile_cons, hx x (by simp), iht]
    · simp [List.dropWhile_cons, hx x (by simp), ihd]

theorem parseFrac_no {cs : List Char}
    (h : ∀ c, cs.head? = some c → (c == '.' || c == ',') = false) :
    parseFrac cs = some (0, cs) := by
  cases cs with
  | nil => rfl
  | cons c r => simp [parseFrac, h c rfl]

theorem trimTrailZeros_decomp (ds : List Char) :
    ∃ z, ds = trimTrailZeros ds ++ List.replicate z '0' := by
  refine ⟨(ds.reverse.takeWhile (fun c => c == '0')).length, ?_⟩
  conv_lhs => rw [← List.reverse_reverse ds,
    ← @List.takeWhile_append_dropWhile _ (fun c => c == '0') ds.reverse]
  rw [List.reverse_append]
  unfold trimTrailZeros
  congr 1
  have hall : ∀ c ∈ ds.reverse.takeWhile (fun c => c == '0'), c = '0' := by
    intro c hc
    simpa using List.mem_takeWhile_imp hc
  rw [List.eq_replicate_of_mem hall]
  simp

theorem digitsVal_append_zeros (ds : List Char) (z : Nat) :
    digitsVal (ds ++ List.replicate z '0') = digitsVal ds * 10 ^ z := by
  rw [digitsVal_append]
  have h0 : digitsVal (List.replicate z '0') = 0 := by
    induction z with
    | zero => rfl
    | succ z ih =>
      show (List.replicate (z + 1) '0').foldl (fun a c => 10 * a + dval c) 0 = 0
      rw [List.replicate_succ, List.foldl_cons]
      show (List.replicate z '0').foldl (fun a c => 10 * a + dval c) 0 = 0
      exact ih
  rw [h0, List.length_replicate]
  simp

theorem fmtFrac_spec {ns : Nat} (h0 : ns ≠ 0) (h : ns < 1000000000) :
    ∃ ds, fmtFrac ns = '.' :: ds ∧ ds ≠ [] ∧ ds.length ≤ 9 ∧
      (∀ c ∈ ds, isDigitCh c = true) ∧ digitsVal ds * 10 ^ (9 - ds.length) = ns := by
  have hlt : ns < 10 ^ 9 := by norm_num; omega
  obtain ⟨z, hz⟩ := trimTrailZeros_decomp (padDigits 9 ns)
  have hlen : (trimTrailZeros (padDigits 9 ns)).length + z = 9 := by
    have := padDigits_length 9 ns
    rw [hz] at this
    simpa using this
  have hvalz : digitsVal (trimTrailZeros (padDigits 9 ns)) * 10 ^ z = ns := by
    have h1 := padDigits_val hlt
    rw [hz, digitsVal_append_zeros] at h1
    exact h1
  refine ⟨trimTrailZeros (padDigits 9 ns), by simp [fmtFrac, h0], ?_, by omega, ?_, ?_⟩
  · intro he
    rw [he] at hvalz
    have : digitsVal ([] : List Char) = 0 := rfl
    rw [this] at hvalz
    omega
  · intro c hc
    refine padDigits_all_digits hlt c ?_
    rw [hz]
    exact List.mem_append_left _ hc
  · have : 9 - (trimTrailZeros (padDigits 9 ns)).length = z := by omega
    rw [this]
    exact hvalz

theorem parseFrac_fmtFrac {ns : Nat} (h : ns < 1000000000) {rest : List Char}
    (hrest : ∀ c, rest.head? = some c →
      (c == '.' || c == ',') = false ∧ isDigitCh c = false) :
    parseFrac (fmtFrac ns ++ rest) = some (ns, rest) := by
  by_cases h0 : ns = 0
  · subst h0
    simp only [fmtFrac, if_pos rfl, List.nil_append]
    exact parseFrac_no (fun c hc => (hrest c hc).1)
  · obtain ⟨ds, hfmt, hne, hlen, hall, hval⟩ := fmtFrac_spec h0 h
    rw [hfmt, List.cons_append]
    obtain ⟨htake, hdrop⟩ := takeWhile_all_append hall (fun c hc => (hrest c hc).2)
    have h1 : 1 ≤ ds.length := List.length_pos.mpr hne
    have htk : List.take 9 ds = ds := List.take_of_length_le hlen
    simp only [parseFrac, htake, hdrop, if_pos h1, htk, hval]
    rw [if_pos (by decide)]

/-! ## Date-time format/parse lemmas -/

theorem getnum2_pad2 {n : Nat} (h : n < 10 ^ 2) {rest : List Char} :
    getnum2 (padDigits 2 n ++ rest) = some (n, rest) := by
  have h1 : isDigitCh (digitCh (n / 10)) = true := isDigitCh_digitCh (by omega)
  have h0 : isDigitCh (digitCh (n % 10 / 1)) = true := isDigitCh_digitCh (by omega)
  show getnum2 (digitCh (n / 10) :: digitCh (n % 10 / 1) :: rest) = some (n, rest)
  simp only [getnum2, h1, h0, if_true]
  rw [dval_digitCh (by omega), dval_digitCh (by omega)]
  have he : 10 * (n / 10) + n % 10 / 1 = n := by omega
  rw [he]

theorem parseDateTime_fmt (sep : Char) {y mo d h mi s ns : Nat} {rest : List Char}
    (hy : y < 10 ^ 4) (hmo : mo < 10 ^ 2) (hd : d < 10 ^ 2) (hh : h < 10 ^ 2)
    (hmi : mi < 10 ^ 2) (hs : s < 10 ^ 2) (hns : ns < 1000000000)
    (hrest : ∀ c, rest.head? = some c →
      (c == '.' || c == ',') = false ∧ isDigitCh c = false) :
    parseDateTime sep (padDigits 4 y ++ ('-' :: (padDigits 2 mo ++ ('-' :: (padDigits 2 d ++
      (sep :: (padDigits 2 h ++ (':' :: (padDigits 2 mi ++ (':' :: (padDigits 2 s ++
      (fmtFrac ns ++ rest)))))))))))) =
      some (⟨(y : Int), mo, d, h, mi, s, ns, 0⟩, rest) := by
  have hfr := parseFrac_fmtFrac hns hrest
  have hb : ∀ {α β : Type} (a : α) (f : α → Option β), Option.bind (some a) f = f a :=
    fun _ _ => rfl
  simp only [parseDateTime, Option.bind_eq_bind, parseFixed_pad, getnum2_pad2, expectCh_cons,
    hfr, hb, hy, hmo, hd, hh, hmi, hs]
  rfl

theorem parseOffset_Z (r : List Char) : parseOffset ('Z' :: r) = some (0, r) := by
  simp [parseOffset]

theorem parseOffset_fmtOffset {off : Int} (h60 : off % 60 = 0) (hb : off.natAbs < 86400) :
    parseOffset (fmtOffset off) = some (off, []) := by
  by_cases h0 : off = 0
  · subst h0
    simp only [fmtOffset, if_pos rfl]
    exact parseOffset_Z []
  · have hA60 : off.natAbs % 60 = 0 := by omega
    have hh : off.natAbs / 3600 < 10 ^ 2 := by omega
    have hm : off.natAbs % 3600 / 60 < 10 ^ 2 := by omega
    have hval : (off.natAbs / 3600) * 3600 + (off.natAbs % 3600 / 60) * 60 = off.natAbs := by
      omega
    by_cases hneg : off ≤ -60
    · simp only [fmtOffset, if_neg h0, if_pos hneg]
      simp only [parseOffset, show (('-' : Char) == 'Z') = false from by decide,
        Bool.false_eq_true, if_false, show (('-' : Char) == '+' || ('-' : Char) == '-') = true
          from by decide, if_true, parseFixed_pad, parseFixed_pad_nil, expectCh_cons, hh, hm,
        show (('-' : Char) == '-') = true from by decide]
      refine congrArg some (Prod.ext ?_ rfl)
      show -(((off.natAbs / 3600) * 3600 + (off.natAbs % 3600 / 60) * 60 : Nat) : Int) = off
      rw [hval]
      omega
    · simp only [fmtOffset, if_neg h0, if_neg hneg]
      simp only [parseOffset, show (('+' : Char) == 'Z') = false from by decide,
        Bool.false_eq_true, if_false, show (('+' : Char) == '+' || ('+' : Char) == '-') = true
          from by decide, if_true, parseFixed_pad, parseFixed_pad_nil, expectCh_cons, hh, hm,
        show (('+' : Char) == '-') = false from by decide]
      refine congrArg some (Prod.ext ?_ rfl)
      show (((off.natAbs / 3600) * 3600 + (off.natAbs % 3600 / 60) * 60 : Nat) : Int) = off
      rw [hval]
      omega

theorem fmtOffset_head {off : Int} :
    ∀ c, (fmtOffset off).head? = some c → (c == '.' || c == ',') = false ∧
      isDigitCh c = false := by
  intro c hc
  by_cases h0 : off = 0
  · subst h0
    simp only [fmtOffset, if_pos rfl] at hc
    injection hc with hc
    subst hc
    exact ⟨by decide, by decide⟩
  · simp only [fmtOffset, if_neg h0] at hc
    by_cases hneg : off ≤ -60
    · rw [if_pos hneg] at hc
      injection hc with hc
      subst hc
      exact ⟨by decide, by decide⟩
    · rw [if_neg hneg] at hc
      injection hc with hc
      subst hc
      exact ⟨by decide, by decide⟩

theorem validGoTime_bounds {t : GoTime} (hv : validGoTime t = true) :
    1 ≤ t.month ∧ t.month ≤ 12 ∧ 1 ≤ t.day ∧ t.day ≤ daysIn t.year t.month ∧
      t.hour ≤ 23 ∧ t.minute ≤ 59 ∧ t.second ≤ 59 ∧ t.nano < 1000000000 := by
  simp only [validGoTime, Bool.and_eq_true, decide_eq_true_eq] at hv
  tauto

theorem daysIn_le_31 (y : Int) (m : Nat) : daysIn y m ≤ 31 := by
  unfold daysIn
  split
  · split <;> omega
  · split <;> omega

theorem goParse_rfc3339_fmt {t : GoTime} (hv : validGoTime t = true) (hy0 : 0 ≤ t.year)
    (hy : t.year ≤ 9999) (hoff : t.offset % 60 = 0) (hoffb : t.offset.natAbs < 86400) :
    goParse rfc3339Layout ⟨fmtRFC3339Nano t⟩ = some t := by
  obtain ⟨hm1, hm2, hd1, hd2, hhr, hmin, hsec, hns⟩ := validGoTime_bounds hv
  have hdle := daysIn_le_31 t.year t.month
  simp only [goParse, if_pos rfl]
  show parseLayoutRFC3339 (fmtRFC3339Nano t) = some t
  unfold parseLayoutRFC3339 fmtRFC3339Nano
  simp only [List.append_assoc, List.cons_append]
  rw [parseDateTime_fmt 'T' (by omega) (by omega) (by omega) (by omega) (by omega) (by omega)
    hns fmtOffset_head]
  simp only [Option.bind_eq_bind, Option.some_bind]
  rw [parseOffset_fmtOffset hoff hoffb]
  simp only [Option.some_bind, List.isEmpty_nil, if_true]
  have hfin : finishTime
      ⟨(t.year.toNat : Int), t.month, t.day, t.hour, t.minute, t.second, t.nano, 0⟩
      t.offset = some t := by
    unfold finishTime
    have hy2 : (t.year.toNat : Int) = t.year := Int.toNat_of_nonneg hy0
    simp only [hy2]
    have he : ({ (⟨t.year, t.month, t.day, t.hour, t.minute, t.second, t.nano, 0⟩ : GoTime)
        with offset := t.offset } : GoTime) = t := rfl
    rw [he, if_pos hv]
  exact hfin

/-! ## Quoted time token lemmas -/

theorem trimQuotes_wrap {cs : List Char} (hne : cs ≠ [])
    (h1 : ∀ c, cs.head? = some c → (c == '"') = false)
    (h2 : ∀ c, cs.getLast? = some c → (c == '"') = false) :
    trimCharList (fun c => c == '"') ('"' :: (cs ++ ['"'])) = cs := by
  obtain ⟨c0, cs', rfl⟩ := List.exists_cons_of_ne_nil hne
  unfold trimCharList
  have e1 : List.dropWhile (fun c => c == '"') ('"' :: (c0 :: cs' ++ ['"'])) =
      c0 :: cs' ++ ['"'] := by
    rw [List.dropWhile_cons]
    simp only [show (('"' : Char) == '"') = true from rfl, if_true]
    rw [List.cons_append, List.dropWhile_cons]
    simp [h1 c0 rfl]
  rw [e1]
  have e2 : (c0 :: cs' ++ ['"']).reverse = '"' :: (c0 :: cs').reverse := by
    rw [List.reverse_append]
    rfl
  rw [e2, List.dropWhile_cons]
  simp only [show (('"' : Char) == '"') = true from rfl, if_true]
  have e3 : List.dropWhile (fun c => c == '"') (c0 :: cs').reverse = (c0 :: cs').reverse := by
    cases hr : (c0 :: cs').reverse with
    | nil => rfl
    | cons x xs =>
      have hx : (c0 :: cs').getLast? = some x := by
        rw [← List.head?_reverse, hr]
        rfl
      rw [List.dropWhile_cons]
      simp [h2 x hx]
  rw [e3, List.reverse_reverse]

theorem padDigits_getLast_digit (k n : Nat) (h : n < 10 ^ (k + 1)) :
    ∃ c, (padDigits (k + 1) n).getLast? = some c ∧ isDigitCh c = true := by
  have hne := padDigits_ne_nil k n
  refine ⟨(padDigits (k + 1) n).getLast hne, List.getLast?_eq_getLast _ hne, ?_⟩
  exact padDigits_all_digits h _ (List.getLast_mem hne)

theorem getLast?_cons_of_some {l : List Char} {x c : Char} (h : l.getLast? = some x) :
    (c :: l).getLast? = some x := by
  cases l with
  | nil => simp at h
  | cons b t => rw [List.getLast?_cons_cons]; exact h

theorem fmtOffset_getLast (off : Int) :
    ∃ c, (fmtOffset off).getLast? = some c ∧ (c == '"') = false := by
  by_cases h0 : off = 0
  · exact ⟨'Z', by simp [fmtOffset, h0], by decide⟩
  · obtain ⟨c, hc, hd⟩ := padDigits_getLast_digit 1 (off.natAbs % 3600 / 60) (by omega)
    have hc2 : (padDigits 2 (off.natAbs % 3600 / 60)).getLast? = some c := hc
    refine ⟨c, ?_, by
      simpa [beq_eq_false_iff_ne] using digit_ne_of_toNat hd (Or.inl (by decide))⟩
    simp only [fmtOffset, if_neg h0]
    refine getLast?_cons_of_some ?_
    rw [List.getLast?_append, getLast?_cons_of_some hc2]
    rfl

theorem fmtRFC3339Nano_getLast (t : GoTime) :
    ∃ c, (fmtRFC3339Nano t).getLast? = some c ∧ (c == '"') = false := by
  obtain ⟨c, hc, hq⟩ := fmtOffset_getLast t.offset
  refine ⟨c, ?_, hq⟩
  unfold fmtRFC3339Nano
  rw [List.getLast?_append, hc]
  rfl

theorem fmtRFC3339Nano_head (t : GoTime) :
    (fmtRFC3339Nano t).head? = some (digitCh (t.year.toNat / 10 ^ 3)) := by
  unfold fmtRFC3339Nano
  rw [show padDigits 4 t.year.toNat = digitCh (t.year.toNat / 10 ^ 3) ::
    padDigits 3 (t.year.toNat % 10 ^ 3) from rfl]
  simp only [List.append_assoc, List.cons_append, List.head?_cons]

theorem fmtRFC3339Nano_ne_nil (t : GoTime) : fmtRFC3339Nano t ≠ [] := by
  intro h
  have hh := fmtRFC3339Nano_head t
  rw [h] at hh
  exact Option.noConfusion hh

theorem timeUnmarshal_marshal (prev : TimeParam) {v : GoTime}
    (hv : validGoTime v = true) (hy0 : 0 ≤ v.year) (hy : v.year ≤ 9999)
    (hoff : v.offset % 60 = 0) (hoffb : v.offset.natAbs < 86400) :
    timeMarshalJSON (timeSet v) = (some ⟨'"' :: (fmtRFC3339Nano v ++ ['"'])⟩, none) ∧
    timeUnmarshalJSON prev ⟨'"' :: (fmtRFC3339Nano v ++ ['"'])⟩ =
      ({ value := v, present := true }, none) := by
  have hfmt_ne := fmtRFC3339Nano_ne_nil v
  constructor
  · simp only [timeMarshalJSON, timeSet, Bool.not_true, Bool.false_eq_true, if_false]
    rw [goTimeMarshalJSON, if_neg (by omega), if_neg (by omega)]
  · have hq1 : (⟨'"' :: (fmtRFC3339Nano v ++ ['"'])⟩ : String) ≠ "" := by
      intro he
      have h := congrArg String.data he
      simp at h
    have hq2 : (⟨'"' :: (fmtRFC3339Nano v ++ ['"'])⟩ : String) ≠ "null" := by
      intro he
      have h := congrArg String.data he
      injection h with hh _
      exact absurd hh (by decide)
    have hq3 : (⟨'"' :: (fmtRFC3339Nano v ++ ['"'])⟩ : String) ≠ "\"\"" := by
      intro he
      have h := congrArg String.data he
      injection h with _ hh
      exact hfmt_ne (List.append_cancel_right
        (show fmtRFC3339Nano v ++ ['"'] = [] ++ ['"'] by simpa using hh))
    have htrim : strTrimQuotes ⟨'"' :: (fmtRFC3339Nano v ++ ['"'])⟩ = ⟨fmtRFC3339Nano v⟩ := by
      unfold strTrimQuotes
      rw [show (⟨'"' :: (fmtRFC3339Nano v ++ ['"'])⟩ : String).data =
        '"' :: (fmtRFC3339Nano v ++ ['"']) from rfl]
      rw [trimQuotes_wrap hfmt_ne ?_ ?_]
      · intro c hc
        rw [fmtRFC3339Nano_head v] at hc
        injection hc with hc
        subst hc
        have hd : isDigitCh (digitCh (v.year.toNat / 10 ^ 3)) = true :=
          isDigitCh_digitCh (by omega)
        simpa [beq_eq_false_iff_ne] using digit_ne_of_toNat hd (Or.inl (by decide))
      · intro c hc
        obtain ⟨c2, hc2, hq⟩ := fmtRFC3339Nano_getLast v
        rw [hc2] at hc
        injection hc with hc
        subst hc
        exact hq
    have hparse : firstLayoutParse timeLayouts ⟨fmtRFC3339Nano v⟩ = some v := by
      have hp := goParse_rfc3339_fmt hv hy0 hy hoff hoffb
      simp only [timeLayouts, firstLayoutParse, hp]
    have hcond : ¬((⟨'"' :: (fmtRFC3339Nano v ++ ['"'])⟩ : String) = "" ∨
        (⟨'"' :: (fmtRFC3339Nano v ++ ['"'])⟩ : String) = "null") := by
      rintro (he | he)
      · exact hq1 he
      · exact hq2 he
    simp only [timeUnmarshalJSON, if_neg hcond, if_neg hq3, htrim, hparse]

/-- C5: the Set / Encode / Decode roundtrip holds for every kind, over the
values the kind can faithfully carry on the wire: any Bool, any Int within
the signed 64-bit range, any String, and any calendar-valid Time whose year
lies in `[0, 9999]`, whose zone offset is a whole number of minutes below a
day in magnitude — decoding the bytes produced by marshalling `Set v`
yields `(v, present := true)` with no error. -/
theorem spec_C5 :
    (∀ (prev : BoolParam) (v : Bool),
      boolUnmarshalJSON prev (boolMarshalJSON (boolSet v)).1 =
        ({ value := v, present := true }, none)) ∧
    (∀ (prev : IntParam) (v : Int), -(2 ^ 63) ≤ v → v < 2 ^ 63 →
      intUnmarshalJSON prev (intMarshalJSON (intSet v)).1 =
        ({ value := v, present := true }, none)) ∧
    (∀ (prev : StringParam) (v : String),
      stringUnmarshalJSON prev (stringMarshalJSON (stringSet v)).1 =
        ({ value := v, present := true }, none)) ∧
    (∀ (prev : TimeParam) (v : GoTime), validGoTime v = true →
      0 ≤ v.year → v.year ≤ 9999 → v.offset % 60 = 0 → v.offset.natAbs < 86400 →
      ∃ bytes, timeMarshalJSON (timeSet v) = (some bytes, none) ∧
        timeUnmarshalJSON prev bytes = ({ value := v, present := true }, none)) := by
  refine ⟨fun prev v => ?_, fun prev v h1 h2 => ?_, fun prev v => ?_,
    fun prev v hv hy0 hy hoff hoffb => ?_⟩
  · cases v <;> rfl
  · show intUnmarshalJSON prev (formatInt (intGet (intSet v))) = _
    rw [show intGet (intSet v) = v from rfl]
    exact intUnmarshal_formatInt prev h1 h2
  · show stringUnmarshalJSON prev (jsonEncodeString (stringValue (stringSet v))) = _
    rw [show stringValue (stringSet v) = v from rfl]
    exact stringUnmarshal_encode prev v
  · exact ⟨⟨'"' :: (fmtRFC3339Nano v ++ ['"'])⟩,
      (timeUnmarshal_marshal prev hv hy0 hy hoff hoffb).1,
      (timeUnmarshal_marshal prev hv hy0 hy hoff hoffb).2⟩

/-- Witness for C5 at concrete values of each kind. -/
theorem spec_C5_witness :
    boolUnmarshalJSON ⟨false, false⟩ (boolMarshalJSON (boolSet true)).1 =
      ({ value := true, present := true }, none) ∧
    intUnmarshalJSON ⟨0, false⟩ (intMarshalJSON (intSet (-42))).1 =
      ({ value := -42, present := true }, none) ∧
    stringUnmarshalJSON ⟨"", false⟩ (stringMarshalJSON (stringSet "hi")).1 =
      ({ value := "hi", present := true }, none) ∧
    ∃ bytes,
      timeMarshalJSON (timeSet ⟨2023, 10, 5, 14, 48, 0, 123456789, 0⟩) = (some bytes, none) ∧
      timeUnmarshalJSON ⟨zeroGoTime, false⟩ bytes =
        ({ value := ⟨2023, 10, 5, 14, 48, 0, 123456789, 0⟩, present := true }, none) :=
  ⟨spec_C5.1 ⟨false, false⟩ true,
   spec_C5.2.1 ⟨0, false⟩ (-42) (by decide) (by decide),
   spec_C5.2.2.1 ⟨"", false⟩ "hi",
   spec_C5.2.2.2 ⟨zeroGoTime, false⟩ ⟨2023, 10, 5, 14, 48, 0, 123456789, 0⟩
     (by decide) (by decide) (by decide) (by decide) (by decide)⟩

theorem isValidIntToken_digits {c : Char} {cs : List Char} (hc : isDigitCh c = true)
    (hall : (c :: cs).all isDigitCh = true) : isValidIntToken ⟨c :: cs⟩ = true := by
  unfold isValidIntToken
  split
  · rename_i ds heq
    injection heq with hh _
    rw [hh] at hc
    exact absurd hc (by decide)
  · rename_i ds heq
    simp only [List.isEmpty_cons, Bool.not_false, Bool.true_and]
    exact hall

theorem isValidIntToken_neg_digits {ds : List Char} (hne : ds ≠ [])
    (hall : ds.all isDigitCh = true) : isValidIntToken ⟨'-' :: ds⟩ = true := by
  unfold isValidIntToken
  split
  · rename_i ds2 heq
    injection heq with _ hh
    subst hh
    cases ds with
    | nil => exact absurd rfl hne
    | cons a t => simpa using hall
  · rename_i hno
    exact (hno ds rfl).elim

theorem isValidIntToken_formatInt (v : Int) : isValidIntToken (formatInt v) = true := by
  by_cases hv : v < 0
  · have hdata : formatInt v = ⟨'-' :: natToDec v.natAbs⟩ := by simp [formatInt, hv]
    rw [hdata]
    exact isValidIntToken_neg_digits (natToDec_ne_nil _)
      (List.all_eq_true.mpr (natToDec_all_digits _))
  · have hdata : formatInt v = ⟨natToDec v.toNat⟩ := by simp [formatInt, hv]
    obtain ⟨c0, rest, hcons⟩ := List.exists_cons_of_ne_nil (natToDec_ne_nil v.toNat)
    have hall : (natToDec v.toNat).all isDigitCh = true :=
      List.all_eq_true.mpr (natToDec_all_digits _)
    rw [hdata, hcons]
    rw [hcons] at hall
    exact isValidIntToken_digits (by simpa using List.all_eq_true.mp hall c0 (by simp)) hall

/-- C2 amended: the absent-state encodings are not uniformly the `null`
token — Bool and Time do emit `null` when `present == false`, but Int
emits the token `0` and String emits the empty quoted string `""`.  When
`present == true` every kind emits a syntactically valid token of its
kind: Bool emits `true` or `false`, Int emits a bare optionally-signed
decimal integer literal, String emits a JSON string token that decodes
back to the stored value, and Time (when its year is in `[0, 9999]` and
its offset magnitude is under 24 hours, the cases where marshalling
succeeds at all — a sub-minute offset remainder is truncated by the
formatter, not an error) emits the double-quoted RFC 3339 text of its
value. -/
theorem spec_C2_amended :
    (∀ b : BoolParam, b.present = false → (boolMarshalJSON b).1 = "null") ∧
    (∀ t : TimeParam, t.present = false → (timeMarshalJSON t).1 = some "null") ∧
    (∀ i : IntParam, i.present = false → (intMarshalJSON i).1 = "0") ∧
    (∀ s : StringParam, s.present = false → (stringMarshalJSON s).1 = "\"\"") ∧
    (∀ b : BoolParam, b.present = true →
      (boolMarshalJSON b).1 = "true" ∨ (boolMarshalJSON b).1 = "false") ∧
    (∀ i : IntParam, i.present = true → isValidIntToken (intMarshalJSON i).1 = true) ∧
    (∀ s : StringParam, s.present = true →
      jsonDecodeStringToken (stringMarshalJSON s).1 = some s.value) ∧
    (∀ t : TimeParam, t.present = true → 0 ≤ t.value.year → t.value.year ≤ 9999 →
      t.value.offset.natAbs < 86400 →
      (timeMarshalJSON t).1 = some ⟨'"' :: (fmtRFC3339Nano t.value ++ ['"'])⟩) := by
  refine ⟨fun b hp => ?_, fun t hp => ?_, fun i hp => ?_, fun s hp => ?_,
    fun b hp => ?_, fun i hp => ?_, fun s hp => ?_, fun t hp hy0 hy hoffb => ?_⟩
  · simp [boolMarshalJSON, hp]
  · simp [timeMarshalJSON, hp]
  · simp only [intMarshalJSON, intGet, hp, Bool.not_false, if_true]
    rfl
  · simp only [stringMarshalJSON, stringValue, hp, Bool.not_false, if_true]
    rfl
  · simp only [boolMarshalJSON, hp, Bool.not_true, Bool.false_eq_true, if_false]
    cases b.value <;> simp
  · exact isValidIntToken_formatInt _
  · simp only [stringMarshalJSON, stringValue, hp, Bool.not_true, Bool.false_eq_true, if_false]
    exact jsonDecode_jsonEncode s.value
  · simp only [timeMarshalJSON, hp, Bool.not_true, Bool.false_eq_true, if_false]
    rw [goTimeMarshalJSON, if_neg (by omega), if_neg (by omega)]

/-- Witness for C2 amended at concrete instances of each kind and
presence state. -/
theorem spec_C2_amended_witness :
    (boolMarshalJSON ⟨true, false⟩).1 = "null" ∧
    (timeMarshalJSON ⟨zeroGoTime, false⟩).1 = some "null" ∧
    (intMarshalJSON ⟨7, false⟩).1 = "0" ∧
    (stringMarshalJSON ⟨"x", false⟩).1 = "\"\"" ∧
    ((boolMarshalJSON ⟨false, true⟩).1 = "true" ∨ (boolMarshalJSON ⟨false, true⟩).1 = "false") ∧
    isValidIntToken (intMarshalJSON ⟨-5, true⟩).1 = true ∧
    jsonDecodeStringToken (stringMarshalJSON ⟨"a\"b", true⟩).1 = some "a\"b" ∧
    (timeMarshalJSON ⟨⟨2023, 1, 2, 3, 4, 5, 0, 3600⟩, true⟩).1 =
      some ⟨'"' :: (fmtRFC3339Nano ⟨2023, 1, 2, 3, 4, 5, 0, 3600⟩ ++ ['"'])⟩ :=
  ⟨spec_C2_amended.1 ⟨true, false⟩ rfl,
   spec_C2_amended.2.1 ⟨zeroGoTime, false⟩ rfl,
   spec_C2_amended.2.2.1 ⟨7, false⟩ rfl,
   spec_C2_amended.2.2.2.1 ⟨"x", false⟩ rfl,
   spec_C2_amended.2.2.2.2.1 ⟨false, true⟩ rfl,
   spec_C2_amended.2.2.2.2.2.1 ⟨-5, true⟩ rfl,
   spec_C2_amended.2.2.2.2.2.2.1 ⟨"a\"b", true⟩ rfl,
   spec_C2_amended.2.2.2.2.2.2.2 ⟨⟨2023, 1, 2, 3, 4, 5, 0, 3600⟩, true⟩ rfl
     (by decide) (by decide) (by decide)⟩
